import Mathlib

/-!
# Verification of the pySim-shell card file-system walker/exporter

Shallow embedding of `pySim-shell.py` (the `Iso7816Commands` command set:
`walk`, `export`, `do_export`, `do_select`, `PysimApp.update_prompt`) and of
the static service table `pySim/ts_31_102.py` (`EF_UST_map`).

The runtime card-state layer (`pySim/filesystem.py`: `RuntimeState.select`,
`fully_qualified_path`, `get_selectable_names`, `read_binary`, `read_record`)
is not among the sources of this repository slice; those operations are
modelled from the specification (path elements resolve against the children
of the currently selected node, the cursor is unchanged on a failed SELECT,
parent-reference pops the selection stack, and a direct SELECT of a sibling
from an EF context is accepted by the card).  Every shell-level function is a
line-by-line transliteration of the Python source.
-/

namespace PySim

/-- Decoded file descriptor of the FCP returned by a successful SELECT
(the `fcp_dec['file_descriptor']` dictionary): the structure tag and, for
record-structured files, the decoded record count (`num_of_rec`). -/
structure FileDesc where
  struct : String
  numOfRec : Option Nat
deriving Repr

/-- A node of the card file-system tree.  `df` covers MF/DF/ADF directory
nodes; `ef` is a leaf.  `selOk` models whether the card accepts a SELECT of
this node; `desc` is the decoded file descriptor the card reports for it
(`none` models an FCP without a `file_descriptor` entry); `readBin` is the
card's response to READ BINARY (`none` models a read error); `readRec` lists
the card's responses to READ RECORD for indices 1, 2, … (`none` entries and
out-of-range indices model read errors). -/
inductive File where
  | df (name fid : String) (selOk : Bool) (desc : Option FileDesc) (children : List File)
  | ef (name fid : String) (selOk : Bool) (desc : Option FileDesc)
      (readBin : Option String) (readRec : List (Option String))
deriving Repr

namespace File

def name : File → String
  | .df n _ _ _ _ => n
  | .ef n _ _ _ _ _ => n

def fid : File → String
  | .df _ i _ _ _ => i
  | .ef _ i _ _ _ _ => i

def selOk : File → Bool
  | .df _ _ s _ _ => s
  | .ef _ _ s _ _ _ => s

def desc : File → Option FileDesc
  | .df _ _ _ d _ => d
  | .ef _ _ _ d _ _ => d

def children : File → List File
  | .df _ _ _ _ ch => ch
  | .ef _ _ _ _ _ _ => []

def readBinOf : File → Option String
  | .df _ _ _ _ _ => none
  | .ef _ _ _ _ rb _ => rb

def readRecOf : File → List (Option String)
  | .df _ _ _ _ _ => []
  | .ef _ _ _ _ _ rr => rr

def isDf : File → Bool
  | .df _ _ _ _ _ => true
  | .ef _ _ _ _ _ _ => false

/-- Modelled from the spec: `get_selectable_names(flags = ['NAMES', 'APPS'])`
returns the names of the selectable children of the current node (EF leaves
have none). -/
def selectableNames (f : File) : List String :=
  f.children.map name

end File

/-- A command sent to the card (the request/response round trips issued by
the shell: SELECT by path element, READ BINARY, READ RECORD). -/
inductive CardOp where
  | sel (name : String)
  | readBin
  | readRec (r : Nat)
deriving Repr, DecidableEq

/-- The shell-visible state: the selection chain mirrored from the card
(currently selected file first, MF last), the lines written with `poutput`
so far, and the trace of card commands issued so far. -/
structure ShellState where
  chain : List File
  out : List String
  tr : List CardOp

def addOut (st : ShellState) (s : String) : ShellState :=
  { st with out := st.out ++ [s] }

def addTr (st : ShellState) (op : CardOp) : ShellState :=
  { st with tr := st.tr ++ [op] }

/-- Name of the currently selected file. -/
def curName (st : ShellState) : Option String :=
  st.chain.head?.map File.name

def findChild (fs : List File) (nm : String) : Option File :=
  fs.find? (fun c => c.name == nm)

/-- The chain of the directory against which path elements resolve: the
chain itself when the cursor is a DF, and the parent chain when the cursor
is an EF (a direct SELECT of a sibling from an EF context is accepted by
the card, per ISO selection semantics assumed by the spec). -/
def dirChain (ch : List File) : List File :=
  match ch with
  | [] => []
  | c :: rest => if c.isDf then c :: rest else rest

/-- Candidate files a non-parent path element resolves against. -/
def selCandidates (ch : List File) : List File :=
  match dirChain ch with
  | [] => []
  | d :: _ => d.children

/-- Modelled from the spec: `RuntimeState.select` for a single path element
(`pySim/filesystem.py` is not among the sources).  The element either is the
parent-reference token `".."` (pop the selection stack and re-select the
parent; the MF stays selected at the root), or must resolve against the
current directory's children; the cursor is unchanged when resolution or the
card's SELECT fails, and the failure is raised to the caller. -/
def rsSelect (st : ShellState) (f : String) : Except (ShellState × String) ShellState :=
  let st1 := addTr st (.sel f)
  if f == ".." then
    match st1.chain with
    | _ :: p :: rest => .ok { st1 with chain := p :: rest }
    | _ => .ok st1
  else
    match findChild (selCandidates st1.chain) f with
    | none => .error (st1, "file not found")
    | some c =>
      if c.selOk then .ok { st1 with chain := c :: dirChain st1.chain }
      else .error (st1, "select failed")

/-- Modelled from the spec: `RuntimeState.read_binary()` with no arguments
reads the whole body of the currently selected transparent EF; a card error
is raised. -/
def readBinary (st : ShellState) : Except (ShellState × String) (ShellState × String) :=
  let st1 := addTr st .readBin
  match st1.chain with
  | .ef _ _ _ _ (some b) _ :: _ => .ok (st1, b)
  | _ => .error (st1, "read_binary failed")

/-- Modelled from the spec: `RuntimeState.read_record(r)` reads record `r`
(1-based) of the currently selected record-structured EF; a card error is
raised. -/
def readRecord (st : ShellState) (r : Nat) : Except (ShellState × String) (ShellState × String) :=
  let st1 := addTr st (.readRec r)
  match st1.chain with
  | .ef _ _ _ _ _ rr :: _ =>
    match rr.get? (r - 1) with
    | some (some s) => .ok (st1, s)
    | _ => .error (st1, "read_record failed")
  | _ => .error (st1, "read_record failed")

/-- Modelled from the spec: `selected_file.fully_qualified_path(prefer_name)`
returns the ordered segment labels from the MF down to the selected file:
human-readable names when `prefer_name`, numeric file ids otherwise. -/
def fully_qualified_path (ch : List File) (preferName : Bool) : List String :=
  ch.reverse.map (fun f => if preferName then f.name else f.fid)

/-- `f[0:2] == "DF" or f[0:3] == 'ADF'`: the name test with which `walk`
decides to recurse into a child. -/
def isDirName (f : String) : Bool :=
  f.take 2 == "DF" || f.take 3 == "ADF"

/-- `"  " * indent`. -/
def indentStr (n : Nat) : String :=
  String.join (List.replicate n "  ")

/-- The body of the record loop of `Iso7816Commands.export`, iterated over
the list of record indices (Python's `for r in range(...)` iterates the list
of indices `range(...)` denotes):
`result = self._cmd.rs.read_record(r);
self._cmd.poutput("update_record %d %s" % (r, str(result[0])))`.
A read error is raised (output already written is kept). -/
def exportRecsGo : ShellState → List Nat → Except (ShellState × String) ShellState
  | st, [] => .ok st
  | st, r :: rest =>
    match readRecord st r with
    | .error e => .error e
    | .ok (st1, s) =>
      exportRecsGo (addOut st1 ("update_record " ++ toString r ++ " " ++ s)) rest

/-- The record loop of `Iso7816Commands.export` for indices `lo, …, k`
(`range(1, num_of_rec + 1)` is the index list `List.range' 1 num_of_rec`;
the general `lo`/`k` form keeps the loop's invariant statable). -/
def exportRecords (st : ShellState) (lo k : Nat) : Except (ShellState × String) ShellState :=
  exportRecsGo st (List.range' lo (k + 1 - lo))

/-- Lines 163-182 of `pySim-shell.py`, the part of the `try:` block of
`Iso7816Commands.export` after the file was selected (`st` is the
post-select state): print the file/structure header comments, one `select`
line per segment of the fully qualified named path, the `update_binary` /
`update_record` lines according to the decoded structure, then select the
parent reference.  Any failure is raised with the state (cursor, output,
trace) as it was at the point of failure. -/
def exportBodyRest (st : ShellState) : Except (ShellState × String) ShellState := do
  let pathList := fully_qualified_path st.chain true
  let pathListFid := fully_qualified_path st.chain false
  let st := addOut st ("# file:" ++ pathList.getLastD "" ++ " (" ++ pathListFid.getLastD "" ++ ")")
  match (st.chain.head?.bind File.desc) with
  | none => .error (st, "KeyError: file_descriptor")
  | some fd => do
    let st := addOut st ("# structure: " ++ fd.struct)
    let st := pathList.foldl (fun s f => addOut s ("select " ++ f)) st
    let st ← if fd.struct == "transparent" then do
        let (st1, b) ← readBinary st
        pure (addOut st1 ("update_binary " ++ b))
      else pure st
    let st ← if fd.struct == "cyclic" || fd.struct == "linear_fixed" then
        match fd.numOfRec with
        | none => Except.error (st, "KeyError: num_of_rec")
        | some k => exportRecords st 1 k
      else pure st
    rsSelect st ".."

/-- The body of the `try:` block of `Iso7816Commands.export` (lines 162-182
of `pySim-shell.py`): select the file, then run `exportBodyRest`. -/
def exportTryBody (filename : String) (st : ShellState) : Except (ShellState × String) ShellState := do
  let st ← rsSelect st filename
  exportBodyRest st

/-- `Iso7816Commands.export(filename)` (lines 157-186 of `pySim-shell.py`):
print the `# directory:` header, run the `try:` body, catch any exception
into a `# bad file:` comment, and finish with a lone `#` line.  The caller
never sees an exception. -/
def exportCmd (filename : String) (st : ShellState) : ShellState :=
  let pathList := fully_qualified_path st.chain true
  let pathListFid := fully_qualified_path st.chain false
  let st1 := addOut st ("# directory:" ++ String.intercalate "/" pathList
      ++ " (" ++ String.intercalate "/" pathListFid ++ ")")
  let st2 := match exportTryBody filename st1 with
    | .ok s => s
    | .error (s, e) => addOut s ("# bad file:" ++ filename ++ ", " ++ e)
  addOut st2 "#"

/-- Actions passed to `walk` (in the source: `None` or `self.export`). -/
abbrev Action := String → ShellState → ShellState

/-- Names of the selectable children of the currently selected file. -/
def curSelectableNames (st : ShellState) : List String :=
  match st.chain with
  | [] => []
  | c :: _ => c.selectableNames

/-- The `for f in files:` loop of `walk`, parameterised over the recursive
call `walkRec` into a child's subtree: print the indented name when no
action is given; for a `DF`/`ADF`-prefixed name select into it, walk the
subtree, and select the parent reference; otherwise apply the action. -/
def walkLoopF (walkRec : ShellState → Except (ShellState × String) ShellState)
    (indent : Nat) (action : Option Action) :
    List String → ShellState → Except (ShellState × String) ShellState
  | [], st => .ok st
  | f :: rest, st =>
    let st := if action.isNone then addOut st (indentStr indent ++ f) else st
    if isDirName f then
      match rsSelect st f with
      | .error e => .error e
      | .ok st1 =>
        match walkRec st1 with
        | .error e => .error e
        | .ok st2 =>
          match rsSelect st2 ".." with
          | .error e => .error e
          | .ok st3 => walkLoopF walkRec indent action rest st3
    else
      match action with
      | some a => walkLoopF walkRec indent action rest (a f st)
      | none => walkLoopF walkRec indent action rest st

/-- `Iso7816Commands.walk(indent, action)` (lines 140-151 of
`pySim-shell.py`), with an explicit fuel bounding the recursion depth (the
Python recursion is bounded by the finite depth of the card tree; the
theorems supply any fuel at least that depth).  Obtains the selectable
names of the current node and iterates `walkLoopF` over them, recursing
into subtrees with one indent more and one fuel less.  An uncaught SELECT
failure is raised with the state at the point of failure. -/
def walkF : Nat → Nat → Option Action → ShellState → Except (ShellState × String) ShellState
  | 0, _, _, st => .error (st, "recursion depth exceeded")
  | fuel' + 1, indent, action, st =>
    walkLoopF (walkF fuel' (indent + 1) action) indent action (curSelectableNames st) st

/-- `Iso7816Commands.do_export(opts)` (lines 188-197 of `pySim-shell.py`):
with `--filename` given export that one file, otherwise walk the subtree of
the currently selected file with `export` as the action. -/
def do_export (fuel : Nat) (filename : Option String) (st : ShellState) :
    Except (ShellState × String) ShellState :=
  match filename with
  | some fn => .ok (exportCmd fn st)
  | none => walkF fuel 0 (some exportCmd) st

/-- State of the `PysimApp` shell: the card-facing shell state, the
`numeric_path` settable, and the prompt string. -/
structure AppState where
  shell : ShellState
  numeric_path : Bool
  prompt : String

/-- Rendering of the decoded select result printed by `do_select`
(`json.dumps(fcp_dec, indent=4)`); its exact text is irrelevant to the
claims, only that one line is written. -/
def fcpJson : Option FileDesc → String
  | none => "null"
  | some fd =>
    "file_descriptor: structure=" ++ fd.struct
      ++ (match fd.numOfRec with
          | some k => ", num_of_rec=" ++ toString k
          | none => "")

/-- `PysimApp.update_prompt` (lines 69-71 of `pySim-shell.py`):
`self.prompt = 'pySIM-shell (%s)> ' % ('/'.join(path_list))` with
`path_list = self.rs.selected_file.fully_qualified_path(not self.numeric_path)`. -/
def update_prompt (app : AppState) : AppState :=
  { app with prompt := "pySIM-shell ("
      ++ String.intercalate "/" (fully_qualified_path app.shell.chain (!app.numeric_path))
      ++ ")> " }

/-- `Iso7816Commands.do_select` (lines 99-104 of `pySim-shell.py`): select
the given path element, update the prompt, print the decoded FCP.  A SELECT
failure is raised (prompt and cursor untouched). -/
def do_select (arg : String) (app : AppState) : Except (ShellState × String) AppState :=
  match rsSelect app.shell arg with
  | .error e => .error e
  | .ok st1 =>
    let app1 := update_prompt { app with shell := st1 }
    .ok { app1 with shell := addOut app1.shell (fcpJson (st1.chain.head?.bind File.desc)) }

/-- `PysimApp._onchange_numeric_path` (lines 66-67 of `pySim-shell.py`):
changing the `numeric_path` settable re-renders the prompt. -/
def set_numeric_path (b : Bool) (app : AppState) : AppState :=
  update_prompt { app with numeric_path := b }

/-- Modelled from the spec: resolution of the elements of an absolute path
below the MF (`RuntimeState.select` on a multi-element path;
`pySim/filesystem.py` is not among the sources).  Elements are resolved left
to right, each against the children of the node selected by the previous
element; a SELECT the card refuses fails the resolution. -/
def resolveFrom (chain : List File) : List String → Option (List File)
  | [] => some chain
  | f :: rest =>
    match chain with
    | [] => none
    | d :: _ =>
      match findChild d.children f with
      | some c => if c.selOk then resolveFrom (c :: chain) rest else none
      | none => none

/-- Modelled from the spec: `select(p)` for an absolute path `p`
("Absolute paths begin resolution at MF"): the leading element names the MF
itself, the remaining elements descend through children.  On success the
resulting selection chain is committed; on failure the cursor is unchanged
(the caller keeps its previous chain). -/
def selectAbsPath (root : File) (p : List String) : Option (List File) :=
  match p with
  | [] => none
  | r :: rest => if r == root.name then resolveFrom [root] rest else none

/-- Modelled from the spec: `current_path(numeric)` returns the ordered
sequence of segment labels of the currently selected file, numeric file ids
when `numeric`, human-readable names otherwise (the path the prompt shows). -/
def current_path (chain : List File) (numeric : Bool) : List String :=
  chain.reverse.map (fun f => if numeric then f.fid else f.name)

/-- `EF_UST_map` of `pySim/ts_31_102.py`: the mapping between USIM service
number and its description, transliterated entry by entry in source order. -/
def EF_UST_map : List (Nat × String) := [
  (1, "Local Phone Book"),
  (2, "Fixed Dialling Numbers (FDN)"),
  (3, "Extension 2"),
  (4, "Service Dialling Numbers (SDN)"),
  (5, "Extension3"),
  (6, "Barred Dialling Numbers (BDN)"),
  (7, "Extension4"),
  (8, "Outgoing Call Information (OCI and OCT)"),
  (9, "Incoming Call Information (ICI and ICT)"),
  (10, "Short Message Storage (SMS)"),
  (11, "Short Message Status Reports (SMSR)"),
  (12, "Short Message Service Parameters (SMSP)"),
  (13, "Advice of Charge (AoC)"),
  (14, "Capability Configuration Parameters 2 (CCP2)"),
  (15, "Cell Broadcast Message Identifier"),
  (16, "Cell Broadcast Message Identifier Ranges"),
  (17, "Group Identifier Level 1"),
  (18, "Group Identifier Level 2"),
  (19, "Service Provider Name"),
  (20, "User controlled PLMN selector with Access Technology"),
  (21, "MSISDN"),
  (22, "Image (IMG)"),
  (23, "Support of Localised Service Areas (SoLSA)"),
  (24, "Enhanced Multi-Level Precedence and Pre-emption Service"),
  (25, "Automatic Answer for eMLPP"),
  (26, "RFU"),
  (27, "GSM Access"),
  (28, "Data download via SMS-PP"),
  (29, "Data download via SMS-CB"),
  (30, "Call Control by USIM"),
  (31, "MO-SMS Control by USIM"),
  (32, "RUN AT COMMAND command"),
  (33, "shall be set to 1"),
  (34, "Enabled Services Table"),
  (35, "APN Control List (ACL)"),
  (36, "Depersonalisation Control Keys"),
  (37, "Co-operative Network List"),
  (38, "GSM security context"),
  (39, "CPBCCH Information"),
  (40, "Investigation Scan"),
  (41, "MexE"),
  (42, "Operator controlled PLMN selector with Access Technology"),
  (43, "HPLMN selector with Access Technology"),
  (44, "Extension 5"),
  (45, "PLMN Network Name"),
  (46, "Operator PLMN List"),
  (47, "Mailbox Dialling Numbers"),
  (48, "Message Waiting Indication Status"),
  (49, "Call Forwarding Indication Status"),
  (50, "Reserved and shall be ignored"),
  (51, "Service Provider Display Information"),
  (52, "Multimedia Messaging Service (MMS)"),
  (53, "Extension 8"),
  (54, "Call control on GPRS by USIM"),
  (55, "MMS User Connectivity Parameters"),
  (56, "Network's indication of alerting in the MS (NIA)"),
  (57, "VGCS Group Identifier List (EFVGCS and EFVGCSS)"),
  (58, "VBS Group Identifier List (EFVBS and EFVBSS)"),
  (59, "Pseudonym"),
  (60, "User Controlled PLMN selector for I-WLAN access"),
  (61, "Operator Controlled PLMN selector for I-WLAN access"),
  (62, "User controlled WSID list"),
  (63, "Operator controlled WSID list"),
  (64, "VGCS security"),
  (65, "VBS security"),
  (66, "WLAN Reauthentication Identity"),
  (67, "Multimedia Messages Storage"),
  (68, "Generic Bootstrapping Architecture (GBA)"),
  (69, "MBMS security"),
  (70, "Data download via USSD and USSD application mode"),
  (71, "Equivalent HPLMN"),
  (72, "Additional TERMINAL PROFILE after UICC activation"),
  (73, "Equivalent HPLMN Presentation Indication"),
  (74, "Last RPLMN Selection Indication"),
  (75, "OMA BCAST Smart Card Profile"),
  (76, "GBA-based Local Key Establishment Mechanism"),
  (77, "Terminal Applications"),
  (78, "Service Provider Name Icon"),
  (79, "PLMN Network Name Icon"),
  (80, "Connectivity Parameters for USIM IP connections"),
  (81, "Home I-WLAN Specific Identifier List"),
  (82, "I-WLAN Equivalent HPLMN Presentation Indication"),
  (83, "I-WLAN HPLMN Priority Indication"),
  (84, "I-WLAN Last Registered PLMN"),
  (85, "EPS Mobility Management Information"),
  (86, "Allowed CSG Lists and corresponding indications"),
  (87, "Call control on EPS PDN connection by USIM"),
  (88, "HPLMN Direct Access"),
  (89, "eCall Data"),
  (90, "Operator CSG Lists and corresponding indications"),
  (91, "Support for SM-over-IP"),
  (92, "Support of CSG Display Control"),
  (93, "Communication Control for IMS by USIM"),
  (94, "Extended Terminal Applications"),
  (95, "Support of UICC access to IMS"),
  (96, "Non-Access Stratum configuration by USIM"),
  (97, "PWS configuration by USIM"),
  (98, "RFU"),
  (99, "URI support by UICC"),
  (100, "Extended EARFCN support"),
  (101, "ProSe"),
  (102, "USAT Application Pairing"),
  (103, "Media Type support"),
  (104, "IMS call disconnection cause"),
  (105, "URI support for MO SHORT MESSAGE CONTROL"),
  (106, "ePDG configuration Information support"),
  (107, "ePDG configuration Information configured"),
  (108, "ACDC support"),
  (109, "MCPTT"),
  (110, "ePDG configuration Information for Emergency Service support"),
  (111, "ePDG configuration Information for Emergency Service configured")]

/-- Whether a shell computation raised. -/
def isErr : Except (ShellState × String) ShellState → Bool
  | .error _ => true
  | .ok _ => false

/-! ## Concrete example cards used by the witnesses and counterexamples -/

/-- An EF the card selects but whose FCP decodes without a
`file_descriptor` entry, so reading it during export raises. -/
def badEF : File := .ef "EF.BAD" "6fff" true none none []

/-- A card whose MF directly holds `badEF`. -/
def mfC1 : File := .df "MF" "3f00" true none [badEF]

def stC1 : ShellState := ⟨[mfC1], [], []⟩

/-- A DF holding only `badEF`. -/
def dfBadA : File := .df "DF.A" "5f0a" true none [badEF]

/-- An empty sibling DF after `dfBadA`. -/
def dfB : File := .df "DF.B" "5f0b" true none []

/-- A card where a failing EF inside `DF.A` is followed by a sibling
`DF.B`. -/
def mfC2 : File := .df "MF" "3f00" true none [dfBadA, dfB]

def stC2 : ShellState := ⟨[mfC2], [], []⟩

/-- A transparent EF whose body reads back as `"CAFE"`. -/
def efT : File := .ef "EF.T" "6f01" true (some ⟨"transparent", none⟩) (some "CAFE") []

/-- A linear-fixed EF with two readable records. -/
def efR : File := .ef "EF.R" "6f02" true (some ⟨"linear_fixed", some 2⟩) none [some "AA", some "BB"]

/-- A DF holding the two well-behaved EFs. -/
def dfA : File := .df "DF.A" "5f01" true none [efT, efR]

/-- A transparent EF directly below the MF. -/
def efS : File := .ef "EF.S" "6f03" true (some ⟨"transparent", none⟩) (some "00") []

/-- A fully well-behaved card: `MF[DF.A[EF.T, EF.R], EF.S]`. -/
def mfW : File := .df "MF" "3f00" true none [dfA, efS]

def stW : ShellState := ⟨[mfW], [], []⟩

/-- The state a tree walk of `stW` returns. -/
def wRes : ShellState :=
  ⟨[mfW], ["DF.A", "  EF.T", "  EF.R", "EF.S"], [CardOp.sel "DF.A", CardOp.sel ".."]⟩

/-- The state at which exporting `badEF` below `stC1` raises. -/
def c2S : ShellState :=
  ⟨[badEF, mfC1], ["# directory:MF (3f00)", "# file:EF.BAD (6fff)"], [CardOp.sel "EF.BAD"]⟩

/-- The shell state with `DF.A` of the well-behaved card selected. -/
def stC4 : ShellState := ⟨[dfA, mfW], [], []⟩

/-- The app state at the MF of the well-behaved card. -/
def appW : AppState := ⟨stW, false, ""⟩

/-- The app state `do_select "DF.A"` turns `appW` into. -/
def appW2 : AppState :=
  ⟨⟨[dfA, mfW], ["null"], [CardOp.sel "DF.A"]⟩, false, "pySIM-shell (MF/DF.A)> "⟩

/-! ## Structural helpers on trees -/

theorem findChild_mem {fs : List File} {nm : String} {c : File}
    (h : findChild fs nm = some c) : c ∈ fs :=
  List.mem_of_find?_eq_some h

theorem findChild_name {fs : List File} {nm : String} {c : File}
    (h : findChild fs nm = some c) : c.name = nm := by
  have := List.find?_some h
  simpa using this

theorem sizeOf_lt_of_mem_children {c n : File} (h : c ∈ n.children) :
    sizeOf c < sizeOf n := by
  cases n with
  | df nm fi s d ch =>
    simp only [File.children] at h
    have h1 : sizeOf c < sizeOf ch := List.sizeOf_lt_of_mem h
    simp only [File.df.sizeOf_spec]
    omega
  | ef nm fi s d rb rr =>
    simp [File.children] at h

theorem sizeOf_lt_of_findChild {n : File} {nm : String} {c : File}
    (h : findChild n.children nm = some c) : sizeOf c < sizeOf n :=
  sizeOf_lt_of_mem_children (findChild_mem h)

mutual

/-- Depth of a single tree (a leaf has depth 1, a node is one deeper than
its deepest child): the recursion depth `walk` needs. -/
def depth : File → Nat
  | .df _ _ _ _ ch => 1 + depthL ch
  | .ef _ _ _ _ _ _ => 1

/-- Depth of the trees in a list of files (`[]` has depth 0). -/
def depthL : List File → Nat
  | [] => 0
  | c :: rest => max (depth c) (depthL rest)

end

theorem depth_eq (n : File) : depth n = 1 + depthL n.children := by
  cases n with
  | df nm fi s d ch => rfl
  | ef nm fi s d rb rr => rfl

theorem depth_le_depthL {c : File} {ch : List File} (h : c ∈ ch) :
    depth c ≤ depthL ch := by
  induction ch with
  | nil => cases h
  | cons d rest ih =>
    rcases List.mem_cons.mp h with h1 | h1
    · subst h1
      rw [depthL]
      exact le_max_of_le_left (le_of_eq rfl)
    · rw [depthL]
      exact le_max_of_le_right (ih h1)

/-- Walk-well-formedness of the children name list `fs` of node `n`: every
`DF`/`ADF`-prefixed name resolves to a child the card lets the shell select,
recursively.  This is what a faultless traversal of the directory skeleton
needs. -/
def wfL (n : File) (fs : List String) : Bool :=
  match fs with
  | [] => true
  | f :: rest =>
    (if isDirName f then
      match h : findChild n.children f with
      | some c => c.selOk && wfL c c.selectableNames
      | none => false
     else true) && wfL n rest
termination_by (sizeOf n, fs.length)
decreasing_by
  · exact Prod.Lex.left _ _ (sizeOf_lt_of_findChild h)
  · exact Prod.Lex.right _ (by simp only [List.length_cons]; omega)

/-- Walk-well-formedness of a node's subtree. -/
def wellFormedB (n : File) : Bool := wfL n n.selectableNames

/-- The card accepts READ BINARY of the whole body of `c`. -/
def canReadBin (c : File) : Bool := c.readBinOf.isSome

/-- The card accepts READ RECORD `r` (1-based) of `c`. -/
def canReadRec (c : File) (r : Nat) : Bool := ((c.readRecOf.get? (r - 1)).getD none).isSome

/-- The `try:` body of `export` runs to completion on the selected file `c`:
a decoded file descriptor is present, a transparent body can be read, and
for record-structured files the record count is decoded and records
`1..num_of_rec` can all be read. -/
def bodyCleanB (c : File) : Bool :=
  match c.desc with
  | none => false
  | some fd =>
    (if fd.struct == "transparent" then canReadBin c else true) &&
    (if fd.struct == "cyclic" || fd.struct == "linear_fixed" then
      match fd.numOfRec with
      | none => false
      | some k => (List.range k).all (fun i => canReadRec c (i + 1))
     else true)

/-- `export f` run below the directory node `n` leaves the cursor where it
was: `f` is not the parent reference, and either it does not resolve, or its
select is refused, or the whole body runs cleanly. -/
def exportSafeB (n : File) (f : String) : Bool :=
  f != ".." &&
    (match findChild n.children f with
     | none => true
     | some c => !c.selOk || bodyCleanB c)

/-- All-goodness of the children name list `fs` of node `n`: directory-named
children are walkable (as in `wfL`) and every other name is export-safe, so
a full `do_export` runs with no cursor displacement anywhere. -/
def agL (n : File) (fs : List String) : Bool :=
  match fs with
  | [] => true
  | f :: rest =>
    (if isDirName f then
      match h : findChild n.children f with
      | some c => c.selOk && agL c c.selectableNames
      | none => false
     else exportSafeB n f) && agL n rest
termination_by (sizeOf n, fs.length)
decreasing_by
  · exact Prod.Lex.left _ _ (sizeOf_lt_of_findChild h)
  · exact Prod.Lex.right _ (by simp only [List.length_cons]; omega)

/-- All-goodness of a node's subtree. -/
def allGoodB (n : File) : Bool := agL n n.selectableNames

/-- Output and card-command semantics assumed for a walk action: applied to
name `f` at selection chain `ctx`, the action appends these lines and card
commands and leaves the chain alone. -/
def ActionSem : Type := String → List File → List String × List CardOp

/-- Concatenation of (output lines, card commands) pairs. -/
def pcat (a b : List String × List CardOp) : List String × List CardOp :=
  (a.1 ++ b.1, a.2 ++ b.2)

/-- The line `walk` prints for a visited name when no action is given. -/
def visOf (mode : Option ActionSem) (ind : Nat) (f : String) : List String × List CardOp :=
  if mode.isNone then ([indentStr ind ++ f], []) else ([], [])

/-- What a non-directory name contributes: the action semantics when one is
given, nothing otherwise. -/
def actSem (mode : Option ActionSem) (f : String) (ctx : List File) :
    List String × List CardOp :=
  match mode with
  | some g => g f ctx
  | none => ([], [])

/-- Specification-side depth-first pre-order traversal, following the spec's
words ("visit the current node, then for each DF/ADF child, SELECT into it,
recurse, then SELECT parent-reference to return"): the output lines and card
commands of the walk of `fs` (the selectable child names of `n`, in order)
at indent `ind` with selection chain `ctx`.  With `mode = none` each name is
printed indented; with `mode = some g` the action semantics `g` is applied
to each non-directory name instead. -/
def dfsSpecL (mode : Option ActionSem) (n : File) (ind : Nat) (ctx : List File)
    (fs : List String) : List String × List CardOp :=
  match fs with
  | [] => ([], [])
  | f :: rest =>
    pcat (visOf mode ind f)
      (pcat
        (if isDirName f then
          match h : findChild n.children f with
          | some c =>
            pcat (pcat ([], [CardOp.sel f])
              (dfsSpecL mode c (ind + 1) (c :: ctx) c.selectableNames))
              ([], [CardOp.sel ".."])
          | none => ([], [CardOp.sel f])
        else actSem mode f ctx)
        (dfsSpecL mode n ind ctx rest))
termination_by (sizeOf n, fs.length)
decreasing_by
  · exact Prod.Lex.left _ _ (sizeOf_lt_of_findChild h)
  · exact Prod.Lex.right _ (by simp only [List.length_cons]; omega)

/-- Specification-side DFS of a whole subtree. -/
def dfsSpec (mode : Option ActionSem) (n : File) (ind : Nat) (ctx : List File) :
    List String × List CardOp :=
  dfsSpecL mode n ind ctx n.selectableNames

/-- An observer action: it records the name it was applied to and changes
nothing else.  Passing it to `walk` makes the exact set and order of action
applications visible in the output. -/
def aLog : Action := fun f st => addOut st ("ACT " ++ f)

/-- The pure semantics of `aLog`. -/
def gLog : ActionSem := fun f _ => (["ACT " ++ f], [])

/-- The names, in traversal order, that a walk of the name list `fs` below
node `n` hands to its action: directory-prefixed names are descended into
instead, every other name is acted on. -/
def actedL (n : File) (fs : List String) : List String :=
  match fs with
  | [] => []
  | f :: rest =>
    (if isDirName f then
      match h : findChild n.children f with
      | some c => actedL c c.selectableNames
      | none => []
     else [f]) ++ actedL n rest
termination_by (sizeOf n, fs.length)
decreasing_by
  · exact Prod.Lex.left _ _ (sizeOf_lt_of_findChild h)
  · exact Prod.Lex.right _ (by simp only [List.length_cons]; omega)

/-- The acted-on names of a whole subtree walk. -/
def actedNames (n : File) : List String := actedL n n.selectableNames

/-- Invariant threaded through `do_export`'s walk: the currently selected
node (if any) is all-good, so every `export` below it is export-safe. -/
def expInv (ch : List File) : Prop :=
  ∀ m, ch.head? = some m → allGoodB m = true

/-! ## Small-step lemmas about the modelled card operations -/

theorem isDirName_ne_parent {f : String} (h : isDirName f = true) : (f == "..") = false := by
  rcases h1 : f == ".." with _ | _
  · rfl
  · exfalso
    have h2 : f = ".." := by exact eq_of_beq h1
    rw [h2] at h
    have h3 : isDirName ".." = false := by decide
    rw [h3] at h
    cases h

theorem rsSelect_parent {st : ShellState} {c p : File} {rest : List File}
    (h : st.chain = c :: p :: rest) :
    rsSelect st ".." = .ok ⟨p :: rest, st.out, st.tr ++ [.sel ".."]⟩ := by
  obtain ⟨ch, out, tr⟩ := st
  simp only at h
  subst h
  rfl

theorem rsSelect_found {st : ShellState} {f : String} {c : File}
    (hne : (f == "..") = false)
    (hfind : findChild (selCandidates st.chain) f = some c)
    (hsel : c.selOk = true) :
    rsSelect st f = .ok ⟨c :: dirChain st.chain, st.out, st.tr ++ [.sel f]⟩ := by
  obtain ⟨ch, out, tr⟩ := st
  simp only at hfind
  simp only [rsSelect, addTr, hne, Bool.false_eq_true, if_false, hfind, hsel, if_true]

theorem rsSelect_notfound {st : ShellState} {f : String}
    (hne : (f == "..") = false)
    (hfind : findChild (selCandidates st.chain) f = none) :
    rsSelect st f = .error (⟨st.chain, st.out, st.tr ++ [.sel f]⟩, "file not found") := by
  obtain ⟨ch, out, tr⟩ := st
  simp only at hfind
  simp only [rsSelect, addTr, hne, Bool.false_eq_true, if_false, hfind]

theorem rsSelect_refused {st : ShellState} {f : String} {c : File}
    (hne : (f == "..") = false)
    (hfind : findChild (selCandidates st.chain) f = some c)
    (hsel : c.selOk = false) :
    rsSelect st f = .error (⟨st.chain, st.out, st.tr ++ [.sel f]⟩, "select failed") := by
  obtain ⟨ch, out, tr⟩ := st
  simp only at hfind
  simp only [rsSelect, addTr, hne, Bool.false_eq_true, if_false, hfind, hsel]

/-- Whatever `rsSelect` returns, the output lines are untouched, the trace
grows by the one SELECT, and on failure the chain is untouched. -/
theorem rsSelect_shape (st : ShellState) (f : String) :
    (∀ s', rsSelect st f = .ok s' → s'.out = st.out ∧ s'.tr = st.tr ++ [.sel f]) ∧
    (∀ s' e, rsSelect st f = .error (s', e) →
      s' = ⟨st.chain, st.out, st.tr ++ [.sel f]⟩) := by
  obtain ⟨ch, out, tr⟩ := st
  constructor
  · intro s' h
    rcases h1 : f == ".." with _ | _
    · rcases h2 : findChild (selCandidates ch) f with _ | c
      · rw [rsSelect_notfound h1 h2] at h; cases h
      · rcases h3 : c.selOk with _ | _
        · rw [rsSelect_refused h1 h2 h3] at h; cases h
        · rw [rsSelect_found h1 h2 h3] at h; cases h; exact ⟨rfl, rfl⟩
    · simp only [rsSelect, addTr, h1, if_true] at h
      rcases ch with _ | ⟨c1, ch1⟩
      · cases h; exact ⟨rfl, rfl⟩
      · rcases ch1 with _ | ⟨c2, ch2⟩
        · cases h; exact ⟨rfl, rfl⟩
        · cases h; exact ⟨rfl, rfl⟩
  · intro s' e h
    rcases h1 : f == ".." with _ | _
    · rcases h2 : findChild (selCandidates ch) f with _ | c
      · rw [rsSelect_notfound h1 h2] at h; cases h; rfl
      · rcases h3 : c.selOk with _ | _
        · rw [rsSelect_refused h1 h2 h3] at h; cases h; rfl
        · rw [rsSelect_found h1 h2 h3] at h; cases h
    · simp only [rsSelect, addTr, h1, if_true] at h
      rcases ch with _ | ⟨c1, ch1⟩
      · cases h
      · rcases ch1 with _ | ⟨c2, ch2⟩ <;> cases h

theorem readBinary_ok {st : ShellState} {nm fi : String} {s : Bool} {d : Option FileDesc}
    {b : String} {rr : List (Option String)} {rest : List File}
    (h : st.chain = .ef nm fi s d (some b) rr :: rest) :
    readBinary st = .ok (⟨st.chain, st.out, st.tr ++ [.readBin]⟩, b) := by
  obtain ⟨ch, out, tr⟩ := st
  simp only at h
  subst h
  rfl

/-- Whatever `readBinary` returns, chain and output are untouched and the
trace grows by the one READ BINARY. -/
theorem readBinary_shape (st : ShellState) :
    (∀ s' b, readBinary st = .ok (s', b) → s' = ⟨st.chain, st.out, st.tr ++ [.readBin]⟩) ∧
    (∀ s' e, readBinary st = .error (s', e) → s' = ⟨st.chain, st.out, st.tr ++ [.readBin]⟩) := by
  obtain ⟨ch, out, tr⟩ := st
  constructor
  · intro s' b h
    rcases ch with _ | ⟨c1, ch1⟩
    · cases h
    · rcases c1 with ⟨nm, fi, s, d, cch⟩ | ⟨nm, fi, s, d, rb, rr⟩
      · cases h
      · rcases rb with _ | b1
        · cases h
        · cases h; rfl
  · intro s' e h
    rcases ch with _ | ⟨c1, ch1⟩
    · cases h; rfl
    · rcases c1 with ⟨nm, fi, s, d, cch⟩ | ⟨nm, fi, s, d, rb, rr⟩
      · cases h; rfl
      · rcases rb with _ | b1
        · cases h; rfl
        · cases h

theorem readRecord_ok {st : ShellState} {nm fi : String} {s : Bool} {d : Option FileDesc}
    {rb : Option String} {rr : List (Option String)} {rest : List File} {r : Nat} {v : String}
    (h : st.chain = .ef nm fi s d rb rr :: rest)
    (hr : rr.get? (r - 1) = some (some v)) :
    readRecord st r = .ok (⟨st.chain, st.out, st.tr ++ [.readRec r]⟩, v) := by
  obtain ⟨ch, out, tr⟩ := st
  simp only at h
  subst h
  simp only [readRecord, addTr, hr]

/-- Whatever `readRecord` returns, chain and output are untouched and the
trace grows by the one READ RECORD. -/
theorem readRecord_shape (st : ShellState) (r : Nat) :
    (∀ s' v, readRecord st r = .ok (s', v) → s' = ⟨st.chain, st.out, st.tr ++ [.readRec r]⟩) ∧
    (∀ s' e, readRecord st r = .error (s', e) →
      s' = ⟨st.chain, st.out, st.tr ++ [.readRec r]⟩) := by
  obtain ⟨ch, out, tr⟩ := st
  constructor
  · intro s' v h
    rcases ch with _ | ⟨c1, ch1⟩
    · cases h
    · rcases c1 with ⟨nm, fi, s, d, cch⟩ | ⟨nm, fi, s, d, rb, rr⟩
      · cases h
      · simp only [readRecord, addTr] at h
        rcases h2 : rr.get? (r - 1) with _ | ⟨_ | v1⟩ <;> rw [h2] at h
        · cases h
        · cases h
        · cases h; rfl
  · intro s' e h
    rcases ch with _ | ⟨c1, ch1⟩
    · cases h; rfl
    · rcases c1 with ⟨nm, fi, s, d, cch⟩ | ⟨nm, fi, s, d, rb, rr⟩
      · cases h; rfl
      · simp only [readRecord, addTr] at h
        rcases h2 : rr.get? (r - 1) with _ | ⟨_ | v1⟩ <;> rw [h2] at h
        · cases h; rfl
        · cases h; rfl
        · cases h

/-! ## The record loop of export -/

/-- Every line `export`'s record loop writes is an `update_record` line. -/
def IsUpdRecLine (l : String) : Prop :=
  ∃ (r : Nat) (a : String), l = "update_record " ++ toString r ++ " " ++ a

/-- Shape relation of the record loop: the chain is untouched, the output
grows by `update_record` lines only, the trace by READ RECORD commands only. -/
def RecShape (st s' : ShellState) : Prop :=
  s'.chain = st.chain ∧
  (∃ ls, s'.out = st.out ++ ls ∧ ∀ l ∈ ls, IsUpdRecLine l) ∧
  (∃ ops, s'.tr = st.tr ++ ops ∧ ∀ op ∈ ops, ∃ r, op = CardOp.readRec r)

theorem RecShape_refl (st : ShellState) : RecShape st st := by
  refine ⟨rfl, ⟨[], by simp, by simp⟩, ⟨[], by simp, by simp⟩⟩

theorem RecShape_trans {a b c : ShellState} (h1 : RecShape a b) (h2 : RecShape b c) :
    RecShape a c := by
  obtain ⟨hc1, ⟨ls1, ho1, hl1⟩, ⟨ops1, ht1, hp1⟩⟩ := h1
  obtain ⟨hc2, ⟨ls2, ho2, hl2⟩, ⟨ops2, ht2, hp2⟩⟩ := h2
  refine ⟨by rw [hc2, hc1], ⟨ls1 ++ ls2, ?_, ?_⟩, ⟨ops1 ++ ops2, ?_, ?_⟩⟩
  · rw [ho2, ho1, List.append_assoc]
  · intro l hl
    rcases List.mem_append.mp hl with h | h
    · exact hl1 l h
    · exact hl2 l h
  · rw [ht2, ht1, List.append_assoc]
  · intro op hop
    rcases List.mem_append.mp hop with h | h
    · exact hp1 op h
    · exact hp2 op h

theorem exportRecsGo_shape : ∀ (rs : List Nat) (st : ShellState),
    (∀ s', exportRecsGo st rs = .ok s' → RecShape st s') ∧
    (∀ s' e, exportRecsGo st rs = .error (s', e) → RecShape st s') := by
  intro rs
  induction rs with
  | nil =>
    intro st
    constructor
    · intro s' h
      rw [exportRecsGo] at h
      cases h
      exact RecShape_refl st
    · intro s' e h
      rw [exportRecsGo] at h
      cases h
  | cons r rest ih =>
    intro st
    have key : ∀ res, exportRecsGo st (r :: rest) = res →
        (∀ s', res = .ok s' → RecShape st s') ∧
        (∀ s' e, res = .error (s', e) → RecShape st s') := by
      intro res hres
      rw [exportRecsGo] at hres
      rcases hrr : readRecord st r with ⟨s1, e1⟩ | ⟨s1, v1⟩
      · rw [hrr] at hres
        have h1 := (readRecord_shape st r).2 s1 e1 hrr
        constructor
        · intro s' h; rw [← hres] at h; cases h
        · intro s' e h
          rw [← hres] at h
          cases h
          subst h1
          exact ⟨rfl, ⟨[], by simp, by simp⟩, ⟨[CardOp.readRec r], by simp, by simp⟩⟩
      · rw [hrr] at hres
        have h1 := (readRecord_shape st r).1 s1 v1 hrr
        have h2 := ih (addOut s1 ("update_record " ++ toString r ++ " " ++ v1))
        have hcomp : RecShape st (addOut s1 ("update_record " ++ toString r ++ " " ++ v1)) := by
          subst h1
          refine ⟨rfl, ⟨["update_record " ++ toString r ++ " " ++ v1], by simp [addOut], ?_⟩,
            ⟨[CardOp.readRec r], by simp [addOut], by simp⟩⟩
          intro l hl
          simp at hl
          exact ⟨r, v1, hl⟩
        constructor
        · intro s' h
          rw [← hres] at h
          exact RecShape_trans hcomp (h2.1 s' h)
        · intro s' e h
          rw [← hres] at h
          exact RecShape_trans hcomp (h2.2 s' e h)
    exact key (exportRecsGo st (r :: rest)) rfl

theorem exportRecords_shape (k : Nat) : ∀ (d lo : Nat) (st : ShellState), k + 1 - lo = d →
    (∀ s', exportRecords st lo k = .ok s' → RecShape st s') ∧
    (∀ s' e, exportRecords st lo k = .error (s', e) → RecShape st s') := by
  intro d lo st _
  rw [exportRecords]
  exact exportRecsGo_shape (List.range' lo (k + 1 - lo)) st

/-- The record loop, when every record `lo..k` reads back, succeeds,
leaving chain untouched and appending one `update_record` line and one READ
RECORD per index in ascending order. -/
theorem exportRecsGo_clean :
    ∀ (rs : List Nat) (st : ShellState) (nm fi : String) (s : Bool) (d0 : Option FileDesc)
      (rb : Option String) (rr : List (Option String)) (rest : List File),
    st.chain = .ef nm fi s d0 rb rr :: rest →
    (∀ i ∈ rs, ((rr.get? (i - 1)).getD none).isSome) →
    exportRecsGo st rs = .ok ⟨st.chain,
      st.out ++ rs.map
        (fun r => "update_record " ++ toString r ++ " " ++ ((rr.get? (r - 1)).getD none).getD ""),
      st.tr ++ rs.map CardOp.readRec⟩ := by
  intro rs
  induction rs with
  | nil =>
    intro st nm fi s d0 rb rr rest hch hrd
    rw [exportRecsGo]
    obtain ⟨ch, out, tr⟩ := st
    simp
  | cons r rest2 ih =>
    intro st nm fi s d0 rb rr rest hch hrd
    have hv : ((rr.get? (r - 1)).getD none).isSome := hrd r (by simp)
    rcases hv2 : rr.get? (r - 1) with _ | ⟨_ | v⟩
    · rw [hv2] at hv; simp at hv
    · rw [hv2] at hv; simp at hv
    · have hrr := readRecord_ok hch hv2
      rw [exportRecsGo]
      simp only [hrr]
      have ih2 := ih
        (addOut ⟨st.chain, st.out, st.tr ++ [CardOp.readRec r]⟩
          ("update_record " ++ toString r ++ " " ++ v))
        nm fi s d0 rb rr rest (by simp [addOut, hch])
        (fun i h1 => hrd i (by simp [h1]))
      rw [ih2]
      obtain ⟨ch, out, tr⟩ := st
      simp only [addOut, List.map_cons]
      simp only at hch
      subst hch
      rw [List.get?_eq_getElem?] at hv2
      simp [hv2, List.append_assoc]

theorem exportRecords_clean (k : Nat) :
    ∀ (d lo : Nat) (st : ShellState) (nm fi : String) (s : Bool) (d0 : Option FileDesc)
      (rb : Option String) (rr : List (Option String)) (rest : List File),
    k + 1 - lo = d →
    st.chain = .ef nm fi s d0 rb rr :: rest →
    (∀ i, lo ≤ i → i ≤ k → ((rr.get? (i - 1)).getD none).isSome) →
    exportRecords st lo k = .ok ⟨st.chain,
      st.out ++ (List.range' lo (k + 1 - lo)).map
        (fun r => "update_record " ++ toString r ++ " " ++ ((rr.get? (r - 1)).getD none).getD ""),
      st.tr ++ (List.range' lo (k + 1 - lo)).map CardOp.readRec⟩ := by
  intro d lo st nm fi s d0 rb rr rest hd hch hrd
  rw [exportRecords]
  refine exportRecsGo_clean (List.range' lo (k + 1 - lo)) st nm fi s d0 rb rr rest hch ?_
  intro i hi
  have h1 := List.mem_range'_1.mp hi
  exact hrd i (by omega) (by omega)

/-! ## Shapes of the lines and card commands export writes -/

/-- The line discipline of the export script format: a comment (leading
`#`) or a `select` / `update_binary` / `update_record` command with
space-separated arguments. -/
def lineOk (l : String) : Prop :=
  (∃ a, l = "#" ++ a) ∨ (∃ a, l = "select " ++ a) ∨
  (∃ a, l = "update_binary " ++ a) ∨ IsUpdRecLine l

theorem lineOk_dir_header (x y : String) :
    lineOk ("# directory:" ++ x ++ " (" ++ y ++ ")") := by
  left
  refine ⟨" directory:" ++ x ++ " (" ++ y ++ ")", ?_⟩
  simp only [String.append_assoc]
  rfl

theorem lineOk_file_header (x y : String) :
    lineOk ("# file:" ++ x ++ " (" ++ y ++ ")") := by
  left
  refine ⟨" file:" ++ x ++ " (" ++ y ++ ")", ?_⟩
  simp only [String.append_assoc]
  rfl

theorem lineOk_structure (x : String) : lineOk ("# structure: " ++ x) := by
  left
  exact ⟨" structure: " ++ x, rfl⟩

theorem lineOk_bad_file (x y : String) :
    lineOk ("# bad file:" ++ x ++ ", " ++ y) := by
  left
  refine ⟨" bad file:" ++ x ++ ", " ++ y, ?_⟩
  simp only [String.append_assoc]
  rfl

theorem lineOk_hash : lineOk "#" := by
  left
  exact ⟨"", rfl⟩

theorem lineOk_select (x : String) : lineOk ("select " ++ x) :=
  Or.inr (Or.inl ⟨x, rfl⟩)

theorem lineOk_update_binary (x : String) : lineOk ("update_binary " ++ x) :=
  Or.inr (Or.inr (Or.inl ⟨x, rfl⟩))

/-- Output extension relation: `s'` has written only `lineOk` lines since `st`. -/
def OutOk (st s' : ShellState) : Prop :=
  ∃ ls, s'.out = st.out ++ ls ∧ ∀ l ∈ ls, lineOk l

/-- Card-trace extension relation of the post-select export body: only the
parent-reference SELECT, READ BINARY and READ RECORD are issued. -/
def OpsOkR (st s' : ShellState) : Prop :=
  ∃ ops, s'.tr = st.tr ++ ops ∧
    ∀ op ∈ ops, op = CardOp.sel ".." ∨ op = CardOp.readBin ∨ ∃ r, op = CardOp.readRec r

theorem OutOk_refl (st : ShellState) : OutOk st st := ⟨[], by simp, by simp⟩

theorem OutOk_trans {a b c : ShellState} (h1 : OutOk a b) (h2 : OutOk b c) : OutOk a c := by
  obtain ⟨ls1, ho1, hl1⟩ := h1
  obtain ⟨ls2, ho2, hl2⟩ := h2
  refine ⟨ls1 ++ ls2, by rw [ho2, ho1, List.append_assoc], ?_⟩
  intro l hl
  rcases List.mem_append.mp hl with h | h
  · exact hl1 l h
  · exact hl2 l h

theorem OutOk_addOut (st : ShellState) {l : String} (h : lineOk l) :
    OutOk st (addOut st l) := by
  refine ⟨[l], by simp [addOut], ?_⟩
  intro l2 hl2
  simp at hl2
  rw [hl2]
  exact h

theorem OpsOkR_refl (st : ShellState) : OpsOkR st st := ⟨[], by simp, by simp⟩

theorem OpsOkR_trans {a b c : ShellState} (h1 : OpsOkR a b) (h2 : OpsOkR b c) : OpsOkR a c := by
  obtain ⟨ls1, ho1, hl1⟩ := h1
  obtain ⟨ls2, ho2, hl2⟩ := h2
  refine ⟨ls1 ++ ls2, by rw [ho2, ho1, List.append_assoc], ?_⟩
  intro l hl
  rcases List.mem_append.mp hl with h | h
  · exact hl1 l h
  · exact hl2 l h

theorem OpsOkR_addTr (st : ShellState) {op : CardOp}
    (h : op = CardOp.sel ".." ∨ op = CardOp.readBin ∨ ∃ r, op = CardOp.readRec r) :
    OpsOkR st (addTr st op) := by
  refine ⟨[op], by simp [addTr], ?_⟩
  intro op2 hop2
  simp at hop2
  rw [hop2]
  exact h

theorem addOut_chain (st : ShellState) (l : String) : (addOut st l).chain = st.chain := rfl

theorem addOut_out (st : ShellState) (l : String) : (addOut st l).out = st.out ++ [l] := rfl

theorem addOut_tr (st : ShellState) (l : String) : (addOut st l).tr = st.tr := rfl

theorem addTr_chain (st : ShellState) (op : CardOp) : (addTr st op).chain = st.chain := rfl

/-- The `for f in path_list: poutput("select " + str(f))` loop. -/
theorem foldl_addOut_select (l : List String) : ∀ st : ShellState,
    l.foldl (fun s f => addOut s ("select " ++ f)) st =
      ⟨st.chain, st.out ++ l.map (fun f => "select " ++ f), st.tr⟩ := by
  induction l with
  | nil => intro st; obtain ⟨ch, out, tr⟩ := st; simp
  | cons f rest ih =>
    intro st
    rw [List.foldl_cons, ih]
    obtain ⟨ch, out, tr⟩ := st
    simp [addOut]

theorem lineOk_selects {l : String} {pl : List String}
    (h : l ∈ pl.map (fun f => "select " ++ f)) : lineOk l := by
  rcases List.mem_map.mp h with ⟨f, _, hf⟩
  rw [← hf]
  exact lineOk_select f

/-- `rsSelect ".."` always succeeds, pops a two-deep chain, writes nothing,
and issues one SELECT. -/
theorem rsSelect_parent_any (st : ShellState) :
    ∃ chain', rsSelect st ".." = .ok ⟨chain', st.out, st.tr ++ [CardOp.sel ".."]⟩ ∧
      ∀ hd p r2, st.chain = hd :: p :: r2 → chain' = p :: r2 := by
  obtain ⟨ch, out, tr⟩ := st
  rcases ch with _ | ⟨c1, ch1⟩
  · refine ⟨[], rfl, ?_⟩
    intro hd p r2 h
    cases h
  · rcases ch1 with _ | ⟨c2, ch2⟩
    · refine ⟨[c1], rfl, ?_⟩
      intro hd p r2 h
      simp at h
    · refine ⟨c2 :: ch2, rfl, ?_⟩
      intro hd p r2 h
      simp only [List.cons.injEq] at h
      rw [h.2.1, h.2.2]

/-- The comment headers and `select` lines the export body writes for the
selected chain `ch` and decoded descriptor `fd`, in order. -/
def hdrLines (ch : List File) (fd : FileDesc) : List String :=
  ("# file:" ++ (fully_qualified_path ch true).getLastD "" ++ " ("
      ++ (fully_qualified_path ch false).getLastD "" ++ ")") ::
    ("# structure: " ++ fd.struct) ::
    (fully_qualified_path ch true).map (fun f => "select " ++ f)

theorem hdrLines_lineOk (ch : List File) (fd : FileDesc) :
    ∀ l ∈ hdrLines ch fd, lineOk l := by
  intro l hl
  rcases List.mem_cons.mp hl with h1 | h1
  · rw [h1]; exact lineOk_file_header _ _
  · rcases List.mem_cons.mp h1 with h2 | h2
    · rw [h2]; exact lineOk_structure _
    · exact lineOk_selects h2

/-- Shape of the post-select export body: on success the parent of the
entry cursor is selected; on failure the cursor is wherever the entry left
it (the entry chain); either way only `lineOk` lines are written and only
parent-SELECT/read commands are issued. -/
theorem exportBodyRest_shape (st : ShellState) :
    (∀ s', exportBodyRest st = .ok s' →
      (OutOk st s' ∧ OpsOkR st s') ∧
      ∀ hd p r2, st.chain = hd :: p :: r2 → s'.chain = p :: r2) ∧
    (∀ s' e, exportBodyRest st = .error (s', e) →
      (OutOk st s' ∧ OpsOkR st s') ∧ s'.chain = st.chain) := by
  obtain ⟨ch, out, tr⟩ := st
  rcases hdesc : ch.head?.bind File.desc with _ | fd
  · -- no file_descriptor in the decoded FCP
    have he : exportBodyRest ⟨ch, out, tr⟩ =
        .error (⟨ch, out ++ ["# file:" ++ (fully_qualified_path ch true).getLastD ""
          ++ " (" ++ (fully_qualified_path ch false).getLastD "" ++ ")"], tr⟩,
          "KeyError: file_descriptor") := by
      simp only [exportBodyRest, addOut_chain, hdesc, addOut]
    constructor
    · intro s' h
      rw [he] at h
      cases h
    · intro s' e h
      rw [he] at h
      cases h
      refine ⟨⟨⟨["# file:" ++ (fully_qualified_path ch true).getLastD ""
          ++ " (" ++ (fully_qualified_path ch false).getLastD "" ++ ")"], rfl, ?_⟩,
        ⟨[], by simp, by simp⟩⟩, rfl⟩
      intro l hl
      simp at hl
      rw [hl]
      exact lineOk_file_header _ _
  · -- file_descriptor decoded
    have hout4 : OutOk ⟨ch, out, tr⟩ ⟨ch, out ++ hdrLines ch fd, tr⟩ :=
      ⟨hdrLines ch fd, rfl, hdrLines_lineOk ch fd⟩
    rcases htr : fd.struct == "transparent" with _ | _
    · -- not transparent
      rcases hrec : fd.struct == "cyclic" || fd.struct == "linear_fixed" with _ | _
      · -- neither transparent nor record-structured: no reads at all
        obtain ⟨chain', hsel, hpop⟩ := rsSelect_parent_any ⟨ch, out ++ hdrLines ch fd, tr⟩
        have he : exportBodyRest ⟨ch, out, tr⟩ =
            .ok ⟨chain', out ++ hdrLines ch fd, tr ++ [CardOp.sel ".."]⟩ := by
          simp only [exportBodyRest, addOut_chain, hdesc, htr, hrec, Bool.false_eq_true,
            if_false, pure, Except.pure, bind, Except.bind]
          rw [foldl_addOut_select]
          simp only [addOut, addOut_chain]
          simp only [hdrLines, List.append_assoc, List.cons_append, List.nil_append] at hsel ⊢
          rw [hsel]
        constructor
        · intro s' h
          rw [he] at h
          cases h
          exact ⟨⟨hout4, ⟨[CardOp.sel ".."], by simp, by simp⟩⟩, hpop⟩
        · intro s' e h
          rw [he] at h
          cases h
      · -- record-structured
        rcases hnum : fd.numOfRec with _ | k
        · -- no num_of_rec in the decoded descriptor
          have he : exportBodyRest ⟨ch, out, tr⟩ =
              .error (⟨ch, out ++ hdrLines ch fd, tr⟩, "KeyError: num_of_rec") := by
            simp only [exportBodyRest, addOut_chain, hdesc, htr, hrec, Bool.false_eq_true,
              if_false, if_true, hnum, pure, Except.pure, bind, Except.bind]
            rw [foldl_addOut_select]
            simp only [addOut, addOut_chain]
            simp only [hdrLines, List.append_assoc, List.cons_append, List.nil_append]
          constructor
          · intro s' h
            rw [he] at h
            cases h
          · intro s' e h
            rw [he] at h
            cases h
            exact ⟨⟨hout4, ⟨[], by simp, by simp⟩⟩, rfl⟩
        · -- record loop with decoded count k
          rcases hrl : exportRecords ⟨ch, out ++ hdrLines ch fd, tr⟩ 1 k
            with ⟨s5, e5⟩ | s5
          · -- a record read failed
            obtain ⟨hc5, ⟨ls5, ho5, hl5⟩, ⟨ops5, ht5, hp5⟩⟩ :=
              ((exportRecords_shape k (k + 1 - 1) 1 _ rfl).2 s5 e5 hrl)
            have he : exportBodyRest ⟨ch, out, tr⟩ = .error (s5, e5) := by
              simp only [exportBodyRest, addOut_chain, hdesc, htr, hrec, Bool.false_eq_true,
                if_false, if_true, hnum, pure, Except.pure, bind, Except.bind]
              rw [foldl_addOut_select]
              simp only [addOut, addOut_chain]
              simp only [hdrLines, List.append_assoc, List.cons_append, List.nil_append] at hrl ⊢
              simp only [hrl]
            constructor
            · intro s' h
              rw [he] at h
              cases h
            · intro s' e h
              rw [he] at h
              cases h
              refine ⟨⟨OutOk_trans hout4 ⟨ls5, ho5, fun l hl => ?_⟩,
                ⟨ops5, by rw [ht5], fun op hop => ?_⟩⟩, by rw [hc5]⟩
              · rcases hl5 l hl with ⟨r, a, hra⟩
                exact Or.inr (Or.inr (Or.inr ⟨r, a, hra⟩))
              · rcases hp5 op hop with ⟨r, hr⟩
                exact Or.inr (Or.inr ⟨r, hr⟩)
          · -- all records read: finish with the parent select
            obtain ⟨hc5, ⟨ls5, ho5, hl5⟩, ⟨ops5, ht5, hp5⟩⟩ :=
              ((exportRecords_shape k (k + 1 - 1) 1 _ rfl).1 s5 hrl)
            obtain ⟨chain', hsel, hpop⟩ := rsSelect_parent_any s5
            have he : exportBodyRest ⟨ch, out, tr⟩ =
                .ok ⟨chain', s5.out, s5.tr ++ [CardOp.sel ".."]⟩ := by
              simp only [exportBodyRest, addOut_chain, hdesc, htr, hrec, Bool.false_eq_true,
                if_false, if_true, hnum, pure, Except.pure, bind, Except.bind]
              rw [foldl_addOut_select]
              simp only [addOut, addOut_chain]
              simp only [hdrLines, List.append_assoc, List.cons_append, List.nil_append]
                at hrl hsel ⊢
              simp only [hrl]
              rw [hsel]
            constructor
            · intro s' h
              rw [he] at h
              cases h
              refine ⟨⟨OutOk_trans hout4 ⟨ls5, ho5, fun l hl => ?_⟩,
                OpsOkR_trans ⟨ops5, by rw [ht5], fun op hop => ?_⟩
                  ⟨[CardOp.sel ".."], rfl, by simp⟩⟩, ?_⟩
              · rcases hl5 l hl with ⟨r, a, hra⟩
                exact Or.inr (Or.inr (Or.inr ⟨r, a, hra⟩))
              · rcases hp5 op hop with ⟨r, hr⟩
                exact Or.inr (Or.inr ⟨r, hr⟩)
              · intro hd p r2 hch2
                exact hpop hd p r2 (by rw [hc5]; exact hch2)
            · intro s' e h
              rw [he] at h
              cases h
    · -- transparent
      have hfd : fd.struct = "transparent" := eq_of_beq htr
      have hrec : (fd.struct == "cyclic" || fd.struct == "linear_fixed") = false := by
        rw [hfd]; decide
      rcases hbr : readBinary ⟨ch, out ++ hdrLines ch fd, tr⟩ with ⟨s5, e5⟩ | ⟨s5, b5⟩
      · -- READ BINARY failed
        have hs5 := (readBinary_shape _).2 s5 e5 hbr
        have he : exportBodyRest ⟨ch, out, tr⟩ = .error (s5, e5) := by
          simp only [exportBodyRest, addOut_chain, hdesc, htr, if_true, pure, Except.pure,
            bind, Except.bind]
          rw [foldl_addOut_select]
          simp only [addOut, addOut_chain]
          simp only [hdrLines, List.append_assoc, List.cons_append, List.nil_append] at hbr ⊢
          simp only [hbr]
        constructor
        · intro s' h
          rw [he] at h
          cases h
        · intro s' e h
          rw [he] at h
          cases h
          rw [hs5]
          exact ⟨⟨OutOk_trans hout4 ⟨[], by simp, by simp⟩,
            ⟨[CardOp.readBin], by simp, by simp⟩⟩, rfl⟩
      · -- READ BINARY succeeded
        have hs5 := (readBinary_shape _).1 s5 b5 hbr
        subst hs5
        obtain ⟨chain', hsel, hpop⟩ := rsSelect_parent_any
          (addOut ⟨ch, out ++ hdrLines ch fd, tr ++ [CardOp.readBin]⟩ ("update_binary " ++ b5))
        have he : exportBodyRest ⟨ch, out, tr⟩ = rsSelect
            (addOut ⟨ch, out ++ hdrLines ch fd, tr ++ [CardOp.readBin]⟩
              ("update_binary " ++ b5)) ".." := by
          simp only [exportBodyRest, addOut_chain, hdesc, htr, hrec, Bool.false_eq_true,
            if_false, if_true, pure, Except.pure, bind, Except.bind]
          rw [foldl_addOut_select]
          simp only [addOut_chain, addOut_out, addOut_tr]
          simp only [hdrLines, List.append_assoc, List.cons_append, List.nil_append] at hbr ⊢
          simp only [hbr]
        constructor
        · intro s' h
          rw [he, hsel] at h
          injection h with h2
          subst h2
          refine ⟨⟨OutOk_trans hout4 ⟨["update_binary " ++ b5], by simp [addOut], fun l hl => ?_⟩,
            ⟨[CardOp.readBin, CardOp.sel ".."], by simp [addOut, List.append_assoc], by simp⟩⟩, ?_⟩
          · simp at hl
            rw [hl]
            exact lineOk_update_binary b5
          · intro hd p r2 hch2
            apply hpop hd p r2
            simp only [addOut_chain]
            exact hch2
        · intro s' e h
          rw [he, hsel] at h
          cases h

/-- Card-trace extension relation of a whole single-file export: at most the
SELECT of the file itself, the parent-reference SELECT, and reads. -/
def OpsOk (f : String) (st s' : ShellState) : Prop :=
  ∃ ops, s'.tr = st.tr ++ ops ∧
    ∀ op ∈ ops, op = CardOp.sel f ∨ op = CardOp.sel ".." ∨ op = CardOp.readBin ∨
      ∃ r, op = CardOp.readRec r

theorem OpsOk_of_R {f : String} {st s' : ShellState} (h : OpsOkR st s') : OpsOk f st s' := by
  obtain ⟨ops, ht, hp⟩ := h
  refine ⟨ops, ht, ?_⟩
  intro op hop
  exact Or.inr (hp op hop)

theorem OpsOk_sel_then {f : String} {st mid s' : ShellState}
    (hmid : mid.tr = st.tr ++ [CardOp.sel f]) (h : OpsOkR mid s') : OpsOk f st s' := by
  obtain ⟨ops, ht, hp⟩ := h
  refine ⟨CardOp.sel f :: ops, by rw [ht, hmid]; simp, ?_⟩
  intro op hop
  rcases List.mem_cons.mp hop with h1 | h1
  · exact Or.inl h1
  · exact Or.inr (hp op h1)

theorem dirChain_ne_nil_of_found {ch : List File} {f : String} {c : File}
    (h : findChild (selCandidates ch) f = some c) : dirChain ch ≠ [] := by
  intro hnil
  rw [selCandidates, hnil] at h
  simp [findChild] at h

/-- Shape of a whole single-file export body (select plus body): only
`lineOk` lines, only the file's SELECT, the parent SELECT and reads; on
success the cursor ends on the entry directory, on failure it is either
unchanged (the select failed) or parked on the successfully selected file. -/
theorem exportTryBody_shape (f : String) (st : ShellState) :
    (∀ s', exportTryBody f st = .ok s' →
      (OutOk st s' ∧ OpsOk f st s') ∧
      ((f == "..") = false → s'.chain = dirChain st.chain)) ∧
    (∀ s' e, exportTryBody f st = .error (s', e) →
      (OutOk st s' ∧ OpsOk f st s') ∧
      ((f == "..") = false → s'.chain = st.chain ∨
        ∃ c, findChild (selCandidates st.chain) f = some c ∧ c.selOk = true ∧
          s'.chain = c :: dirChain st.chain)) := by
  rcases h1 : f == ".." with _ | _
  · rcases h2 : findChild (selCandidates st.chain) f with _ | c
    · -- the file does not resolve: the select raises
      have hsel := rsSelect_notfound h1 h2
      have he : exportTryBody f st =
          .error (⟨st.chain, st.out, st.tr ++ [CardOp.sel f]⟩, "file not found") := by
        simp only [exportTryBody, bind, Except.bind, hsel]
      constructor
      · intro s' h
        rw [he] at h
        cases h
      · intro s' e h
        rw [he] at h
        cases h
        exact ⟨⟨⟨[], by simp, by simp⟩, ⟨[CardOp.sel f], by simp, by simp⟩⟩,
          fun _ => Or.inl rfl⟩
    · rcases h3 : c.selOk with _ | _
      · -- the card refuses the select
        have hsel := rsSelect_refused h1 h2 h3
        have he : exportTryBody f st =
            .error (⟨st.chain, st.out, st.tr ++ [CardOp.sel f]⟩, "select failed") := by
          simp only [exportTryBody, bind, Except.bind, hsel]
        constructor
        · intro s' h
          rw [he] at h
          cases h
        · intro s' e h
          rw [he] at h
          cases h
          exact ⟨⟨⟨[], by simp, by simp⟩, ⟨[CardOp.sel f], by simp, by simp⟩⟩,
            fun _ => Or.inl rfl⟩
      · -- the select succeeds; run the body
        have hsel := rsSelect_found h1 h2 h3
        have he : exportTryBody f st =
            exportBodyRest ⟨c :: dirChain st.chain, st.out, st.tr ++ [CardOp.sel f]⟩ := by
          simp only [exportTryBody, bind, Except.bind, hsel]
        obtain ⟨p, r2, hdc⟩ : ∃ p r2, dirChain st.chain = p :: r2 := by
          rcases hq : dirChain st.chain with _ | ⟨p, r2⟩
          · exact absurd hq (dirChain_ne_nil_of_found h2)
          · exact ⟨p, r2, rfl⟩
        have hbody := exportBodyRest_shape ⟨c :: dirChain st.chain, st.out, st.tr ++ [CardOp.sel f]⟩
        constructor
        · intro s' h
          rw [he] at h
          obtain ⟨⟨ho, ht⟩, hpop⟩ := hbody.1 s' h
          refine ⟨⟨ho, OpsOk_sel_then rfl ht⟩, fun _ => ?_⟩
          rw [hdc]
          exact hpop c p r2 (by rw [hdc])
        · intro s' e h
          rw [he] at h
          obtain ⟨⟨ho, ht⟩, hch⟩ := hbody.2 s' e h
          exact ⟨⟨ho, OpsOk_sel_then rfl ht⟩,
            fun _ => Or.inr ⟨c, rfl, h3, hch⟩⟩
  · -- exporting the parent-reference token itself
    have hf : f = ".." := eq_of_beq h1
    subst hf
    obtain ⟨chain', hsel, _⟩ := rsSelect_parent_any st
    have he : exportTryBody ".." st =
        exportBodyRest ⟨chain', st.out, st.tr ++ [CardOp.sel ".."]⟩ := by
      simp only [exportTryBody, bind, Except.bind, hsel]
    have hbody := exportBodyRest_shape ⟨chain', st.out, st.tr ++ [CardOp.sel ".."]⟩
    constructor
    · intro s' h
      rw [he] at h
      obtain ⟨⟨ho, ht⟩, _⟩ := hbody.1 s' h
      exact ⟨⟨ho, OpsOk_sel_then rfl ht⟩, fun hc => absurd hc (by decide)⟩
    · intro s' e h
      rw [he] at h
      obtain ⟨⟨ho, ht⟩, _⟩ := hbody.2 s' e h
      exact ⟨⟨ho, OpsOk_sel_then rfl ht⟩, fun hc => absurd hc (by decide)⟩

/-- The `# directory:` header line `export` prints first. -/
def dirHeaderLine (ch : List File) : String :=
  "# directory:" ++ String.intercalate "/" (fully_qualified_path ch true)
    ++ " (" ++ String.intercalate "/" (fully_qualified_path ch false) ++ ")"

theorem exportCmd_eq (f : String) (st : ShellState) :
    exportCmd f st =
      addOut (match exportTryBody f (addOut st (dirHeaderLine st.chain)) with
        | .ok s => s
        | .error (s, e) => addOut s ("# bad file:" ++ f ++ ", " ++ e)) "#" := rfl

/-- `export` catches a failing body and records it as a `# bad file:` comment
naming the file and the error, then finishes with the lone `#` line: the
caller never sees the exception. -/
theorem exportCmd_catch {f : String} {st s : ShellState} {e : String}
    (hb : exportTryBody f (addOut st (dirHeaderLine st.chain)) = .error (s, e)) :
    exportCmd f st = addOut (addOut s ("# bad file:" ++ f ++ ", " ++ e)) "#" := by
  rw [exportCmd_eq, hb]

theorem exportCmd_of_ok {f : String} {st s : ShellState}
    (hb : exportTryBody f (addOut st (dirHeaderLine st.chain)) = .ok s) :
    exportCmd f st = addOut s "#" := by
  rw [exportCmd_eq, hb]

/-- Shape of a whole `export f`: it returns normally, writes only `lineOk`
lines, issues only the file's SELECT, the parent SELECT and reads; and (for
`f` not the parent token) the final cursor is the entry directory, the entry
cursor (select failed), or the selected file itself (later failure). -/
theorem exportCmd_shape (f : String) (st : ShellState) :
    (OutOk st (exportCmd f st) ∧ OpsOk f st (exportCmd f st)) ∧
    ((f == "..") = false →
      ((exportCmd f st).chain = dirChain st.chain ∨ (exportCmd f st).chain = st.chain ∨
        ∃ c, findChild (selCandidates st.chain) f = some c ∧ c.selOk = true ∧
          (exportCmd f st).chain = c :: dirChain st.chain)) := by
  have hhdr : OutOk st (addOut st (dirHeaderLine st.chain)) :=
    OutOk_addOut st (lineOk_dir_header _ _)
  rcases hb : exportTryBody f (addOut st (dirHeaderLine st.chain)) with ⟨s, e⟩ | s
  · have he := exportCmd_catch hb
    obtain ⟨⟨ho, ht⟩, hch⟩ := (exportTryBody_shape f _).2 s e hb
    simp only [addOut_chain] at hch
    rw [he]
    constructor
    · constructor
      · refine OutOk_trans hhdr (OutOk_trans ho ?_)
        refine OutOk_trans (OutOk_addOut s (lineOk_bad_file f e)) ?_
        exact OutOk_addOut _ lineOk_hash
      · obtain ⟨ops, htr2, hp⟩ := ht
        exact ⟨ops, by rw [addOut_tr, addOut_tr, htr2, addOut_tr], hp⟩
    · intro hf
      rcases hch hf with h | ⟨c, hfind, hcs, hc⟩
      · exact Or.inr (Or.inl (by rw [addOut_chain, addOut_chain, h]))
      · exact Or.inr (Or.inr ⟨c, hfind, hcs, by rw [addOut_chain, addOut_chain, hc]⟩)
  · have he := exportCmd_of_ok hb
    obtain ⟨⟨ho, ht⟩, hch⟩ := (exportTryBody_shape f _).1 s hb
    simp only [addOut_chain] at hch
    rw [he]
    constructor
    · constructor
      · exact OutOk_trans hhdr (OutOk_trans ho (OutOk_addOut s lineOk_hash))
      · obtain ⟨ops, htr2, hp⟩ := ht
        exact ⟨ops, by rw [addOut_tr, htr2, addOut_tr], hp⟩
    · intro hf
      exact Or.inl (by rw [addOut_chain, hch hf])

/-- The `update_binary` / `update_record` lines a clean export of a file
with decoded descriptor `fd` emits: one binary blob for a transparent file,
one record line per index `1..num_of_rec` in ascending order for a
record-structured file, nothing otherwise. -/
def updLines (c : File) (fd : FileDesc) : List String :=
  (if fd.struct == "transparent" then ["update_binary " ++ c.readBinOf.getD ""] else []) ++
  (if fd.struct == "cyclic" || fd.struct == "linear_fixed" then
    (List.range' 1 (fd.numOfRec.getD 0)).map
      (fun r => "update_record " ++ toString r ++ " " ++ ((c.readRecOf.get? (r - 1)).getD none).getD "")
   else [])

/-- The read commands a clean export issues, matching `updLines`. -/
def updOps (fd : FileDesc) : List CardOp :=
  (if fd.struct == "transparent" then [CardOp.readBin] else []) ++
  (if fd.struct == "cyclic" || fd.struct == "linear_fixed" then
    (List.range' 1 (fd.numOfRec.getD 0)).map CardOp.readRec
   else [])

/-- A clean run of the post-select export body: the headers, the `select`
lines, the structure-appropriate update lines; the reads of `updOps` and
the final parent SELECT; the cursor pops back to the parent. -/
theorem exportBodyRest_clean {c p : File} {r2 : List File} {fd : FileDesc} (st : ShellState)
    (hch : st.chain = c :: p :: r2)
    (hdesc : c.desc = some fd)
    (hclean : bodyCleanB c = true) :
    exportBodyRest st = .ok ⟨p :: r2, st.out ++ (hdrLines st.chain fd ++ updLines c fd),
      st.tr ++ (updOps fd ++ [CardOp.sel ".."])⟩ := by
  obtain ⟨ch, out, tr⟩ := st
  simp only at hch
  subst hch
  have hd2 : (c :: p :: r2).head?.bind File.desc = some fd := by simp [hdesc]
  rcases htr : fd.struct == "transparent" with _ | _
  · -- not transparent
    rcases hrecb : fd.struct == "cyclic" || fd.struct == "linear_fixed" with _ | _
    · -- no reads at all
      obtain ⟨chain', hsel, hpop⟩ := rsSelect_parent_any
        ⟨c :: p :: r2, out ++ hdrLines (c :: p :: r2) fd, tr⟩
      have hpp := hpop c p r2 rfl
      subst hpp
      have he : exportBodyRest ⟨c :: p :: r2, out, tr⟩ =
          .ok ⟨p :: r2, out ++ hdrLines (c :: p :: r2) fd, tr ++ [CardOp.sel ".."]⟩ := by
        simp only [exportBodyRest, addOut_chain, hd2, htr, hrecb, Bool.false_eq_true,
          if_false, pure, Except.pure, bind, Except.bind]
        rw [foldl_addOut_select]
        simp only [addOut_chain, addOut_out, addOut_tr]
        simp only [hdrLines, List.append_assoc, List.cons_append, List.nil_append] at hsel ⊢
        rw [hsel]
      rw [he]
      simp [updLines, updOps, htr, hrecb]
    · -- record-structured
      rcases hnum : fd.numOfRec with _ | k
      · simp [bodyCleanB, hdesc, htr, hrecb, hnum] at hclean
      · simp only [bodyCleanB, hdesc, htr, hrecb, hnum, Bool.false_eq_true, if_false,
          if_true, Bool.true_and] at hclean
        rcases k with _ | k1
        · -- zero records: the loop body never runs
          have hrl : exportRecords ⟨c :: p :: r2, out ++ hdrLines (c :: p :: r2) fd, tr⟩ 1 0 =
              .ok ⟨c :: p :: r2, out ++ hdrLines (c :: p :: r2) fd, tr⟩ := rfl
          obtain ⟨chain', hsel, hpop⟩ := rsSelect_parent_any
            ⟨c :: p :: r2, out ++ hdrLines (c :: p :: r2) fd, tr⟩
          have hpp := hpop c p r2 rfl
          subst hpp
          have he : exportBodyRest ⟨c :: p :: r2, out, tr⟩ =
              .ok ⟨p :: r2, out ++ hdrLines (c :: p :: r2) fd, tr ++ [CardOp.sel ".."]⟩ := by
            simp only [exportBodyRest, addOut_chain, hd2, htr, hrecb, Bool.false_eq_true,
              if_false, if_true, hnum, pure, Except.pure, bind, Except.bind]
            rw [foldl_addOut_select]
            simp only [addOut_chain, addOut_out, addOut_tr]
            simp only [hdrLines, List.append_assoc, List.cons_append, List.nil_append]
              at hrl hsel ⊢
            simp only [hrl]
            rw [hsel]
          rw [he]
          simp [updLines, updOps, htr, hrecb, hnum]
        · -- at least one record: the reads force an EF node
          have h1 : ((c.readRecOf.get? 0).getD none).isSome = true := by
            have := hclean
            rw [List.all_eq_true] at this
            have h2 := this 0 (by simp)
            simpa [canReadRec] using h2
          rcases c with ⟨nm, fi, sb, d, cch⟩ | ⟨nm, fi, sb, d, rb, rr⟩
          · simp [File.readRecOf] at h1
          · simp only [File.desc] at hdesc
            have hreads : ∀ i, 1 ≤ i → i ≤ k1 + 1 →
                ((rr.get? (i - 1)).getD none).isSome := by
              intro i hi1 hi2
              rw [List.all_eq_true] at hclean
              have h2 := hclean (i - 1) (by simp [List.mem_range]; omega)
              have h3 : i - 1 + 1 = i := by omega
              rw [h3] at h2
              simpa [canReadRec, File.readRecOf] using h2
            have hrl := exportRecords_clean (k1 + 1) (k1 + 1) 1
              ⟨File.ef nm fi sb d rb rr :: p :: r2,
                out ++ hdrLines (File.ef nm fi sb d rb rr :: p :: r2) fd, tr⟩
              nm fi sb d rb rr (p :: r2) (by omega) rfl hreads
            obtain ⟨chain', hsel, hpop⟩ := rsSelect_parent_any
              ⟨File.ef nm fi sb d rb rr :: p :: r2,
                (out ++ hdrLines (File.ef nm fi sb d rb rr :: p :: r2) fd) ++
                  (List.range' 1 (k1 + 1 + 1 - 1)).map
                    (fun r => "update_record " ++ toString r ++ " " ++ ((rr.get? (r - 1)).getD none).getD ""),
                tr ++ (List.range' 1 (k1 + 1 + 1 - 1)).map CardOp.readRec⟩
            have hpp := hpop (File.ef nm fi sb d rb rr) p r2 rfl
            subst hpp
            have he : exportBodyRest ⟨File.ef nm fi sb d rb rr :: p :: r2, out, tr⟩ =
                .ok ⟨p :: r2,
                  (out ++ hdrLines (File.ef nm fi sb d rb rr :: p :: r2) fd) ++
                    (List.range' 1 (k1 + 1 + 1 - 1)).map
                      (fun r => "update_record " ++ toString r ++ " " ++ ((rr.get? (r - 1)).getD none).getD ""),
                  (tr ++ (List.range' 1 (k1 + 1 + 1 - 1)).map CardOp.readRec) ++ [CardOp.sel ".."]⟩ := by
              simp only [exportBodyRest, addOut_chain, hd2, htr, hrecb, Bool.false_eq_true,
                if_false, if_true, hnum, pure, Except.pure, bind, Except.bind]
              rw [foldl_addOut_select]
              simp only [addOut_chain, addOut_out, addOut_tr]
              simp only [hdrLines, List.append_assoc, List.cons_append, List.nil_append]
                at hrl hsel ⊢
              simp only [hrl]
              rw [hsel]
            rw [he]
            simp [updLines, updOps, htr, hrecb, hnum, File.readRecOf, List.append_assoc]
  · -- transparent
    have hfd : fd.struct = "transparent" := eq_of_beq htr
    have hrecb : (fd.struct == "cyclic" || fd.struct == "linear_fixed") = false := by
      rw [hfd]; decide
    simp only [bodyCleanB, hdesc, htr, hrecb, if_true, Bool.false_eq_true, if_false,
      Bool.and_true, Bool.true_and] at hclean
    rcases hb : c.readBinOf with _ | b
    · rw [canReadBin, hb] at hclean; simp at hclean
    · rcases c with ⟨nm, fi, sb, d, cch⟩ | ⟨nm, fi, sb, d, rb, rr⟩
      · simp [File.readBinOf] at hb
      · simp only [File.readBinOf] at hb
        subst hb
        simp only [File.desc] at hdesc
        have hbr := readBinary_ok
          (rfl : (⟨File.ef nm fi sb d (some b) rr :: p :: r2,
            out ++ hdrLines (File.ef nm fi sb d (some b) rr :: p :: r2) fd, tr⟩ : ShellState).chain
            = File.ef nm fi sb d (some b) rr :: p :: r2)
        obtain ⟨chain', hsel, hpop⟩ := rsSelect_parent_any
          (addOut ⟨File.ef nm fi sb d (some b) rr :: p :: r2,
            out ++ hdrLines (File.ef nm fi sb d (some b) rr :: p :: r2) fd,
            tr ++ [CardOp.readBin]⟩ ("update_binary " ++ b))
        have hpp := hpop (File.ef nm fi sb d (some b) rr) p r2 rfl
        subst hpp
        have he : exportBodyRest ⟨File.ef nm fi sb d (some b) rr :: p :: r2, out, tr⟩ =
            rsSelect (addOut ⟨File.ef nm fi sb d (some b) rr :: p :: r2,
              out ++ hdrLines (File.ef nm fi sb d (some b) rr :: p :: r2) fd,
              tr ++ [CardOp.readBin]⟩ ("update_binary " ++ b)) ".." := by
          simp only [exportBodyRest, addOut_chain, hd2, htr, hrecb, Bool.false_eq_true,
            if_false, if_true, pure, Except.pure, bind, Except.bind]
          rw [foldl_addOut_select]
          simp only [addOut_chain, addOut_out, addOut_tr]
          simp only [hdrLines, List.append_assoc, List.cons_append, List.nil_append] at hbr ⊢
          simp only [hbr]
        rw [he, hsel]
        simp [updLines, updOps, htr, hrecb, File.readBinOf, addOut, List.append_assoc]

theorem selCandidates_df {m : File} {anc : List File} (hdf : m.isDf = true) :
    selCandidates (m :: anc) = m.children := by
  simp [selCandidates, dirChain, hdf]

theorem dirChain_df {m : File} {anc : List File} (hdf : m.isDf = true) :
    dirChain (m :: anc) = m :: anc := by
  simp [dirChain, hdf]

/-- Specification-side rendering of the lines a single `export f` call
writes below the selection chain `ctx` ("the absolute path to re-select it,
its decoded structure, and for transparent files one binary blob, for
record-structured files one blob per record index 1..count; a file that
fails ... is recorded as a commented-out entry"). -/
def exportBlockOut (f : String) (ctx : List File) : List String :=
  dirHeaderLine ctx ::
    ((match findChild (selCandidates ctx) f with
      | none => ["# bad file:" ++ f ++ ", file not found"]
      | some c =>
        if c.selOk then
          match c.desc with
          | some fd => hdrLines (c :: dirChain ctx) fd ++ updLines c fd
          | none => ["# file:" ++ (fully_qualified_path (c :: dirChain ctx) true).getLastD ""
              ++ " (" ++ (fully_qualified_path (c :: dirChain ctx) false).getLastD "" ++ ")",
              "# bad file:" ++ f ++ ", KeyError: file_descriptor"]
        else ["# bad file:" ++ f ++ ", select failed"]) ++ ["#"])

/-- Specification-side rendering of the card commands a single `export f`
call issues below the selection chain `ctx`. -/
def exportBlockTr (f : String) (ctx : List File) : List CardOp :=
  CardOp.sel f ::
    (match findChild (selCandidates ctx) f with
     | none => []
     | some c =>
       if c.selOk then
         match c.desc with
         | some fd => updOps fd ++ [CardOp.sel ".."]
         | none => []
       else [])

/-- The pure semantics of the `export` action below an all-good directory:
the specification-side block of lines and card commands. -/
def exportSem : ActionSem := fun f ctx => (exportBlockOut f ctx, exportBlockTr f ctx)

/-- A single `export f` below a directory cursor, when `f` is export-safe,
returns with the cursor unchanged, appending exactly the specification-side
block of lines and card commands. -/
theorem exportCmd_safe_run {f : String} {st : ShellState} {m : File} {anc : List File}
    (hch : st.chain = m :: anc) (hdf : m.isDf = true) (hsafe : exportSafeB m f = true) :
    exportCmd f st =
      ⟨st.chain, st.out ++ exportBlockOut f st.chain, st.tr ++ exportBlockTr f st.chain⟩ := by
  rw [exportSafeB, Bool.and_eq_true] at hsafe
  obtain ⟨hne0, hrest⟩ := hsafe
  have hne : (f == "..") = false := by
    rcases hq : f == ".." with _ | _
    · rfl
    · rw [bne, hq] at hne0; cases hne0
  have hcand : selCandidates st.chain = m.children := by rw [hch]; exact selCandidates_df hdf
  have hdc : dirChain st.chain = m :: anc := by rw [hch]; exact dirChain_df hdf
  obtain ⟨ch, out, tr⟩ := st
  simp only at hch hcand hdc
  rcases hfind : findChild m.children f with _ | c
  · -- the file does not resolve below m
    rw [hfind] at hrest
    have hsel := @rsSelect_notfound ⟨ch, out ++ [dirHeaderLine ch], tr⟩ f
      hne (by simp only; rw [hcand]; exact hfind)
    have hb : exportTryBody f (addOut ⟨ch, out, tr⟩ (dirHeaderLine ch)) =
        .error (⟨ch, out ++ [dirHeaderLine ch], tr ++ [CardOp.sel f]⟩, "file not found") := by
      simp only [exportTryBody, bind, Except.bind, hsel, addOut, addOut_chain]
    rw [exportCmd_catch hb]
    simp only [exportBlockOut, exportBlockTr, hcand, hfind, addOut]
    simp [List.append_assoc]
    rw [String.append_assoc]
    rfl
  · rcases hcs : c.selOk with _ | _
    · -- the card refuses the select
      have hsel := @rsSelect_refused ⟨ch, out ++ [dirHeaderLine ch], tr⟩ f c
        hne (by simp only; rw [hcand]; exact hfind) hcs
      have hb : exportTryBody f (addOut ⟨ch, out, tr⟩ (dirHeaderLine ch)) =
          .error (⟨ch, out ++ [dirHeaderLine ch], tr ++ [CardOp.sel f]⟩, "select failed") := by
        simp only [exportTryBody, bind, Except.bind, hsel, addOut, addOut_chain]
      rw [exportCmd_catch hb]
      simp only [exportBlockOut, exportBlockTr, hcand, hfind, hcs, Bool.false_eq_true,
        if_false, addOut]
      simp [List.append_assoc]
      rw [String.append_assoc]
      rfl
    · -- selected: the body must be clean
      rw [hfind] at hrest
      have hrest2 : (!c.selOk || bodyCleanB c) = true := hrest
      rw [hcs] at hrest2
      simp only [Bool.not_true, Bool.false_or] at hrest2
      rcases hdesc2 : c.desc with _ | fd
      · rw [bodyCleanB, hdesc2] at hrest2; cases hrest2
      · have hsel := @rsSelect_found ⟨ch, out ++ [dirHeaderLine ch], tr⟩ f c
          hne (by simp only; rw [hcand]; exact hfind) hcs
        have hb : exportTryBody f (addOut ⟨ch, out, tr⟩ (dirHeaderLine ch)) =
            exportBodyRest ⟨c :: dirChain ch, out ++ [dirHeaderLine ch],
              tr ++ [CardOp.sel f]⟩ := by
          simp only [exportTryBody, bind, Except.bind, addOut, hsel]
        have hclean := exportBodyRest_clean
          ⟨c :: dirChain ch, out ++ [dirHeaderLine ch], tr ++ [CardOp.sel f]⟩
          (by rw [hdc]) hdesc2 hrest2
        rw [hdc] at hb
        have hb2 : exportTryBody f (addOut ⟨ch, out, tr⟩ (dirHeaderLine ch)) =
            .ok ⟨m :: anc,
              (out ++ [dirHeaderLine ch]) ++
                (hdrLines (c :: m :: anc) fd ++ updLines c fd),
              (tr ++ [CardOp.sel f]) ++ (updOps fd ++ [CardOp.sel ".."])⟩ := by
          rw [hb]
          rw [hdc] at hclean
          exact hclean
        rw [exportCmd_of_ok hb2]
        simp only [exportBlockOut, exportBlockTr, hcand, hfind, hcs, if_true, hdesc2,
          addOut, hdc]
        simp [List.append_assoc, hch]

/-! ## Well-formedness bookkeeping for the walk -/

theorem isDf_of_names {n : File} (h : n.selectableNames ≠ []) : n.isDf = true := by
  cases n with
  | df nm fi sb d ch => rfl
  | ef nm fi sb d rb rr => exact absurd rfl h

theorem depth_child {n c : File} {f : String} (h : findChild n.children f = some c) :
    depth c + 1 ≤ depth n := by
  have h1 := depth_le_depthL (findChild_mem h)
  rw [depth_eq n]
  omega

theorem depth_pos (n : File) : 1 ≤ depth n := by
  rw [depth_eq]
  omega

theorem wfL_mem {n : File} {fs : List String} (h : wfL n fs = true) {f : String}
    (hf : f ∈ fs) (hd : isDirName f = true) :
    ∃ c, findChild n.children f = some c ∧ c.selOk = true ∧ wellFormedB c = true := by
  induction fs with
  | nil => cases hf
  | cons f2 rest ih =>
    rw [wfL, Bool.and_eq_true] at h
    rcases List.mem_cons.mp hf with h1 | h1
    · subst h1
      have h2 := h.1
      simp only [hd, eq_self_iff_true, if_true] at h2
      split at h2
      · rename_i c heq
        rw [Bool.and_eq_true] at h2
        exact ⟨c, heq, h2.1, h2.2⟩
      · cases h2
    · exact ih h.2 h1

theorem agL_mem_dir {n : File} {fs : List String} (h : agL n fs = true) {f : String}
    (hf : f ∈ fs) (hd : isDirName f = true) :
    ∃ c, findChild n.children f = some c ∧ c.selOk = true ∧ allGoodB c = true := by
  induction fs with
  | nil => cases hf
  | cons f2 rest ih =>
    rw [agL, Bool.and_eq_true] at h
    rcases List.mem_cons.mp hf with h1 | h1
    · subst h1
      have h2 := h.1
      simp only [hd, eq_self_iff_true, if_true] at h2
      split at h2
      · rename_i c heq
        rw [Bool.and_eq_true] at h2
        exact ⟨c, heq, h2.1, h2.2⟩
      · cases h2
    · exact ih h.2 h1

theorem agL_mem_safe {n : File} {fs : List String} (h : agL n fs = true) {f : String}
    (hf : f ∈ fs) (hd : isDirName f = false) : exportSafeB n f = true := by
  induction fs with
  | nil => cases hf
  | cons f2 rest ih =>
    rw [agL, Bool.and_eq_true] at h
    rcases List.mem_cons.mp hf with h1 | h1
    · subst h1
      have h2 := h.1
      simp only [hd, Bool.false_eq_true, if_false] at h2
      exact h2
    · exact ih h.2 h1

/-- `agL` is pointwise stronger than `wfL` on the directory skeleton. -/
theorem wfL_of_agL {n : File} {fs : List String} (h : agL n fs = true) :
    wfL n fs = true := by
  induction fs with
  | nil => rw [wfL]
  | cons f rest ih =>
    rw [agL, Bool.and_eq_true] at h
    rw [wfL, Bool.and_eq_true]
    refine ⟨?_, ih h.2⟩
    have h1 := h.1
    rcases hd : isDirName f with _ | _
    · simp only [hd, Bool.false_eq_true, if_false]
    · simp only [hd, eq_self_iff_true, if_true] at h1 ⊢
      split at h1
      · rename_i c heq
        rw [Bool.and_eq_true] at h1
        rw [Bool.and_eq_true]
        exact ⟨h1.1, wfL_of_agL h1.2⟩
      · cases h1
termination_by (sizeOf n, fs.length)
decreasing_by
  exact Prod.Lex.left _ _ (sizeOf_lt_of_findChild (by assumption))

theorem wellFormedB_of_allGoodB {n : File} (h : allGoodB n = true) : wellFormedB n = true :=
  wfL_of_agL h

/-! ## Step lemmas for the specification-side DFS -/

theorem dfsSpecL_nil (mode : Option ActionSem) (n : File) (ind : Nat) (ctx : List File) :
    dfsSpecL mode n ind ctx [] = ([], []) := by
  rw [dfsSpecL]

theorem dfsSpecL_cons_dir {f : String} {n c : File} (mode : Option ActionSem)
    (ind : Nat) (ctx : List File) (rest : List String)
    (hd : isDirName f = true) (hfc : findChild n.children f = some c) :
    dfsSpecL mode n ind ctx (f :: rest) =
      pcat (visOf mode ind f)
        (pcat
          (pcat (pcat ([], [CardOp.sel f])
            (dfsSpecL mode c (ind + 1) (c :: ctx) c.selectableNames))
            ([], [CardOp.sel ".."]))
          (dfsSpecL mode n ind ctx rest)) := by
  rw [dfsSpecL]
  simp only [hd, eq_self_iff_true, if_true]
  split
  · rename_i c2 heq
    rw [hfc] at heq
    injection heq with hc
    subst hc
    rfl
  · rename_i heq
    rw [hfc] at heq
    cases heq

theorem dfsSpecL_cons_act {f : String} {n : File} (mode : Option ActionSem)
    (ind : Nat) (ctx : List File) (rest : List String) (hd : isDirName f = false) :
    dfsSpecL mode n ind ctx (f :: rest) =
      pcat (visOf mode ind f)
        (pcat (actSem mode f ctx) (dfsSpecL mode n ind ctx rest)) := by
  rw [dfsSpecL]
  simp only [hd, Bool.false_eq_true, if_false]

/-! ## The master walk theorem -/

/-- `walk` with an action that behaves like the pure action semantics `g`
on every reachable application point is exactly the specification-side
depth-first pre-order traversal: it succeeds, restores the cursor, and
appends the traversal's lines and card commands. `P` is an invariant of
selection chains preserved when descending into a directory child. -/
theorem walkF_spec_act (P : List File → Prop) (a : Action) (g : ActionSem)
    (hA : ∀ f s m ctx, isDirName f = false → s.chain = m :: ctx → m.isDf = true →
      P (m :: ctx) → f ∈ m.selectableNames →
      a f s = ⟨s.chain, s.out ++ (g f s.chain).1, s.tr ++ (g f s.chain).2⟩)
    (hstep : ∀ m ctx f c, P (m :: ctx) → isDirName f = true →
      findChild m.children f = some c → P (c :: m :: ctx)) :
    ∀ fuel (n : File) (anc : List File) (ind : Nat) (st : ShellState),
      wellFormedB n = true → depth n ≤ fuel → st.chain = n :: anc → P (n :: anc) →
      walkF fuel ind (some a) st = .ok ⟨n :: anc,
        st.out ++ (dfsSpec (some g) n ind (n :: anc)).1,
        st.tr ++ (dfsSpec (some g) n ind (n :: anc)).2⟩ := by
  intro fuel
  induction fuel with
  | zero =>
    intro n anc ind st _ hdep _ _
    exact absurd hdep (by have := depth_pos n; omega)
  | succ fuel ih =>
    intro n anc ind st hwf hdep hch hp
    have loop : ∀ fs st2, st2.chain = n :: anc →
        (∀ f2 ∈ fs, f2 ∈ n.selectableNames) →
        walkLoopF (walkF fuel (ind + 1) (some a)) ind (some a) fs st2 = .ok ⟨n :: anc,
          st2.out ++ (dfsSpecL (some g) n ind (n :: anc) fs).1,
          st2.tr ++ (dfsSpecL (some g) n ind (n :: anc) fs).2⟩ := by
      intro fs
      induction fs with
      | nil =>
        intro st2 hch2 _
        rw [walkLoopF, dfsSpecL_nil]
        obtain ⟨ch2, out2, tr2⟩ := st2
        simp only at hch2
        subst hch2
        simp
      | cons f rest ihfs =>
        intro st2 hch2 hsub
        have hmem : f ∈ n.selectableNames := hsub f (by simp)
        have hdf : n.isDf = true :=
          isDf_of_names (by intro hq; rw [hq] at hmem; cases hmem)
        rcases hd : isDirName f with _ | _
        · -- non-directory name: the action runs
          have ha := hA f st2 n anc hd hch2 hdf hp hmem
          rw [walkLoopF]
          simp only [Option.isNone_some, Bool.false_eq_true, if_false, hd]
          rw [ha]
          rw [ihfs ⟨st2.chain, st2.out ++ (g f st2.chain).1, st2.tr ++ (g f st2.chain).2⟩
            hch2 (fun f2 h2 => hsub f2 (by simp [h2]))]
          rw [dfsSpecL_cons_act (some g) ind (n :: anc) rest hd]
          simp only [pcat, visOf, actSem, Option.isNone_some, Bool.false_eq_true, if_false,
            hch2]
          simp [List.append_assoc]
        · -- directory name: select, recurse, select the parent
          obtain ⟨c, hfc, hcs, hwfc⟩ := wfL_mem hwf hmem hd
          have hne := isDirName_ne_parent hd
          have hsel := @rsSelect_found st2 f c hne
            (by rw [hch2, selCandidates_df hdf]; exact hfc) hcs
          rw [hch2, dirChain_df hdf] at hsel
          have hihc := ih c (n :: anc) (ind + 1)
            ⟨c :: n :: anc, st2.out, st2.tr ++ [CardOp.sel f]⟩
            hwfc (by have := depth_child hfc; omega) rfl
            (hstep n anc f c hp hd hfc)
          have hpar := @rsSelect_parent
            ⟨c :: n :: anc,
              st2.out ++ (dfsSpec (some g) c (ind + 1) (c :: n :: anc)).1,
              (st2.tr ++ [CardOp.sel f]) ++ (dfsSpec (some g) c (ind + 1) (c :: n :: anc)).2⟩
            c n anc rfl
          rw [walkLoopF]
          simp only [Option.isNone_some, Bool.false_eq_true, if_false, hd,
            eq_self_iff_true, if_true]
          rw [hsel]
          simp only
          rw [hihc]
          simp only
          rw [hpar]
          simp only
          rw [ihfs ⟨n :: anc,
            st2.out ++ (dfsSpec (some g) c (ind + 1) (c :: n :: anc)).1,
            ((st2.tr ++ [CardOp.sel f]) ++ (dfsSpec (some g) c (ind + 1) (c :: n :: anc)).2)
              ++ [CardOp.sel ".."]⟩
            rfl (fun f2 h2 => hsub f2 (by simp [h2]))]
          rw [dfsSpecL_cons_dir (some g) ind (n :: anc) rest hd hfc]
          simp only [pcat, visOf, Option.isNone_some, Bool.false_eq_true, if_false, dfsSpec]
          simp [List.append_assoc]
    rw [walkF]
    have hnames : curSelectableNames st = n.selectableNames := by
      rw [curSelectableNames, hch]
    rw [hnames]
    exact loop n.selectableNames st hch (fun f2 h2 => h2)

/-- `walk` with no action (the `tree` command) is exactly the
specification-side depth-first pre-order traversal with printing: it
succeeds, restores the cursor, prints each visited name indented by depth
in pre-order, and issues the child/parent SELECTs of the traversal. -/
theorem walkF_spec_none :
    ∀ fuel (n : File) (anc : List File) (ind : Nat) (st : ShellState),
      wellFormedB n = true → depth n ≤ fuel → st.chain = n :: anc →
      walkF fuel ind none st = .ok ⟨n :: anc,
        st.out ++ (dfsSpec none n ind (n :: anc)).1,
        st.tr ++ (dfsSpec none n ind (n :: anc)).2⟩ := by
  intro fuel
  induction fuel with
  | zero =>
    intro n anc ind st _ hdep _
    exact absurd hdep (by have := depth_pos n; omega)
  | succ fuel ih =>
    intro n anc ind st hwf hdep hch
    have loop : ∀ fs st2, st2.chain = n :: anc →
        (∀ f2 ∈ fs, f2 ∈ n.selectableNames) →
        walkLoopF (walkF fuel (ind + 1) none) ind none fs st2 = .ok ⟨n :: anc,
          st2.out ++ (dfsSpecL none n ind (n :: anc) fs).1,
          st2.tr ++ (dfsSpecL none n ind (n :: anc) fs).2⟩ := by
      intro fs
      induction fs with
      | nil =>
        intro st2 hch2 _
        rw [walkLoopF, dfsSpecL_nil]
        obtain ⟨ch2, out2, tr2⟩ := st2
        simp only at hch2
        subst hch2
        simp
      | cons f rest ihfs =>
        intro st2 hch2 hsub
        have hmem : f ∈ n.selectableNames := hsub f (by simp)
        have hdf : n.isDf = true :=
          isDf_of_names (by intro hq; rw [hq] at hmem; cases hmem)
        rcases hd : isDirName f with _ | _
        · -- non-directory name: only the visit line is printed
          rw [walkLoopF]
          simp only [Option.isNone_none, if_true, hd, Bool.false_eq_true, if_false]
          rw [ihfs (addOut st2 (indentStr ind ++ f))
            (by rw [addOut_chain]; exact hch2) (fun f2 h2 => hsub f2 (by simp [h2]))]
          rw [dfsSpecL_cons_act none ind (n :: anc) rest hd]
          simp only [pcat, visOf, actSem, Option.isNone_none, if_true, addOut]
          simp [List.append_assoc]
        · -- directory name: print, select, recurse, select the parent
          obtain ⟨c, hfc, hcs, hwfc⟩ := wfL_mem hwf hmem hd
          have hne := isDirName_ne_parent hd
          have hsel := @rsSelect_found (addOut st2 (indentStr ind ++ f)) f c hne
            (by rw [addOut_chain, hch2, selCandidates_df hdf]; exact hfc) hcs
          rw [addOut_chain, hch2, dirChain_df hdf] at hsel
          have hihc := ih c (n :: anc) (ind + 1)
            ⟨c :: n :: anc, (addOut st2 (indentStr ind ++ f)).out,
              (addOut st2 (indentStr ind ++ f)).tr ++ [CardOp.sel f]⟩
            hwfc (by have := depth_child hfc; omega) rfl
          have hpar := @rsSelect_parent
            ⟨c :: n :: anc,
              (addOut st2 (indentStr ind ++ f)).out ++
                (dfsSpec none c (ind + 1) (c :: n :: anc)).1,
              ((addOut st2 (indentStr ind ++ f)).tr ++ [CardOp.sel f]) ++
                (dfsSpec none c (ind + 1) (c :: n :: anc)).2⟩
            c n anc rfl
          rw [walkLoopF]
          simp only [Option.isNone_none, if_true, hd, eq_self_iff_true]
          rw [hsel]
          simp only
          rw [hihc]
          simp only
          rw [hpar]
          simp only
          rw [ihfs ⟨n :: anc,
            (addOut st2 (indentStr ind ++ f)).out ++
              (dfsSpec none c (ind + 1) (c :: n :: anc)).1,
            (((addOut st2 (indentStr ind ++ f)).tr ++ [CardOp.sel f]) ++
              (dfsSpec none c (ind + 1) (c :: n :: anc)).2) ++ [CardOp.sel ".."]⟩
            rfl (fun f2 h2 => hsub f2 (by simp [h2]))]
          rw [dfsSpecL_cons_dir none ind (n :: anc) rest hd hfc]
          simp only [pcat, visOf, Option.isNone_none, if_true, dfsSpec, addOut]
          simp [List.append_assoc]
    rw [walkF]
    have hnames : curSelectableNames st = n.selectableNames := by
      rw [curSelectableNames, hch]
    rw [hnames]
    exact loop n.selectableNames st hch (fun f2 h2 => h2)

/-! ## Cursor preservation of the walk -/

theorem rsSelect_ok_chain {st : ShellState} {f : String} {st3 : ShellState}
    (hne : (f == "..") = false) (h : rsSelect st f = .ok st3) :
    ∃ c, findChild (selCandidates st.chain) f = some c ∧ c.selOk = true ∧
      st3.chain = c :: dirChain st.chain := by
  rcases hfc : findChild (selCandidates st.chain) f with _ | c
  · rw [rsSelect_notfound hne hfc] at h
    cases h
  · rcases hcs : c.selOk with _ | _
    · rw [rsSelect_refused hne hfc hcs] at h
      cases h
    · rw [rsSelect_found hne hfc hcs] at h
      cases h
      exact ⟨c, rfl, hcs, rfl⟩

set_option maxHeartbeats 1600000 in
/-- The walk, whenever it returns normally and its action (if any) preserves
the cursor, leaves the cursor exactly where it started. -/
theorem walkF_preserves_chain (aM : Option Action)
    (hAP : ∀ a, aM = some a → ∀ f s, (a f s).chain = s.chain) :
    ∀ fuel ind (st st' : ShellState), walkF fuel ind aM st = .ok st' →
      st'.chain = st.chain := by
  intro fuel
  induction fuel with
  | zero =>
    intro ind st st' h
    rw [walkF] at h
    cases h
  | succ fuel ih =>
    have loop : ∀ fs ind (st2 st' : ShellState),
        (st2.chain = [] ∨ ∃ m anc, st2.chain = m :: anc ∧ m.isDf = true) →
        walkLoopF (walkF fuel (ind + 1) aM) ind aM fs st2 = .ok st' →
        st'.chain = st2.chain := by
      intro fs
      induction fs with
      | nil =>
        intro ind st2 st' _ h
        rw [walkLoopF] at h
        cases h
        rfl
      | cons f rest ihfs =>
        intro ind st2 st' hdf h
        rw [walkLoopF.eq_def] at h
        rcases hd : isDirName f with _ | _
        · -- non-directory name
          rcases haM : aM with _ | a
          · subst haM
            simp only [hd, Bool.false_eq_true, if_false, Option.isNone_none, if_true] at h
            have := ihfs ind (addOut st2 (indentStr ind ++ f)) st'
              (by rw [addOut_chain]; exact hdf) h
            rw [this, addOut_chain]
          · subst haM
            simp only [hd, Bool.false_eq_true, if_false, Option.isNone_some] at h
            have hac : (a f st2).chain = st2.chain := hAP a rfl f st2
            have := ihfs ind (a f st2) st' (by rw [hac]; exact hdf) h
            rw [this, hac]
        · -- directory name
          have hdir : ∀ stp : ShellState, stp.chain = st2.chain →
              (match rsSelect stp f with
               | .error e => .error e
               | .ok st1 =>
                 match walkF fuel (ind + 1) aM st1 with
                 | .error e => .error e
                 | .ok st2a =>
                   match rsSelect st2a ".." with
                   | .error e => .error e
                   | .ok st3 =>
                     walkLoopF (walkF fuel (ind + 1) aM) ind aM rest st3) = Except.ok st' →
              st'.chain = st2.chain := by
            intro stp hstp h2
            rcases hs : rsSelect stp f with e | st3
            · rw [hs] at h2
              cases h2
            · rw [hs] at h2
              simp only at h2
              have hne := isDirName_ne_parent hd
              obtain ⟨c, hfc, hcs, hch3⟩ := rsSelect_ok_chain hne hs
              rcases hdf with hnil | ⟨m, anc, hma, hmdf⟩
              · rw [hstp, hnil] at hfc
                rw [selCandidates, dirChain] at hfc
                simp [findChild] at hfc
              · rw [hstp, hma, dirChain_df hmdf] at hch3
                rcases hw : walkF fuel (ind + 1) aM st3 with e | st4
                · rw [hw] at h2
                  cases h2
                · rw [hw] at h2
                  simp only at h2
                  have hch4 : st4.chain = c :: m :: anc := by
                    rw [ih (ind + 1) st3 st4 hw, hch3]
                  obtain ⟨chain5, hsel5, hpop5⟩ := rsSelect_parent_any st4
                  have hch5 : chain5 = m :: anc := hpop5 c m anc hch4
                  rw [hsel5] at h2
                  simp only at h2
                  have := ihfs ind ⟨chain5, st4.out, st4.tr ++ [CardOp.sel ".."]⟩ st'
                    (by simp only; rw [hch5]; exact Or.inr ⟨m, anc, rfl, hmdf⟩) h2
                  rw [this]
                  simp only [hch5, hma]
          rcases haM : aM with _ | a
          · subst haM
            simp only [hd, eq_self_iff_true, if_true, Option.isNone_none] at h
            exact hdir (addOut st2 (indentStr ind ++ f)) (addOut_chain _ _) h
          · subst haM
            simp only [hd, eq_self_iff_true, if_true, Option.isNone_some,
              Bool.false_eq_true, if_false] at h
            exact hdir st2 rfl h
    intro ind st st' h
    rw [walkF] at h
    rcases hchn : st.chain with _ | ⟨m, anc⟩
    · exact (loop (curSelectableNames st) ind st st' (Or.inl hchn) h).trans hchn
    · rcases hm : m.isDf with _ | _
      · have hnames : curSelectableNames st = [] := by
          rw [curSelectableNames, hchn]
          cases m with
          | df nm fi sb d ch => rw [File.isDf] at hm; cases hm
          | ef nm fi sb d rb rr => rfl
        rw [hnames, walkLoopF] at h
        cases h
        exact hchn
      · exact (loop (curSelectableNames st) ind st st'
          (Or.inr ⟨m, anc, hchn, hm⟩) h).trans hchn

/-! ## Step equations for the specification-side recursions -/

theorem pcat_fst (a b : List String × List CardOp) : (pcat a b).1 = a.1 ++ b.1 := rfl

theorem pcat_snd (a b : List String × List CardOp) : (pcat a b).2 = a.2 ++ b.2 := rfl

theorem wfL_nil (n : File) : wfL n [] = true := by rw [wfL]

theorem wfL_cons_dir {f : String} {n c : File} (rest : List String)
    (hd : isDirName f = true) (hfc : findChild n.children f = some c) :
    wfL n (f :: rest) = ((c.selOk && wfL c c.selectableNames) && wfL n rest) := by
  rw [wfL]
  simp only [hd, if_true]
  split
  · rename_i c2 heq
    rw [hfc] at heq
    injection heq with hc
    subst hc
    rfl
  · rename_i heq
    rw [hfc] at heq
    cases heq

theorem wfL_cons_act {f : String} (n : File) (rest : List String)
    (hd : isDirName f = false) : wfL n (f :: rest) = wfL n rest := by
  rw [wfL]
  simp only [hd, Bool.false_eq_true, if_false, Bool.true_and]

theorem agL_nil (n : File) : agL n [] = true := by rw [agL]

theorem agL_cons_dir {f : String} {n c : File} (rest : List String)
    (hd : isDirName f = true) (hfc : findChild n.children f = some c) :
    agL n (f :: rest) = ((c.selOk && agL c c.selectableNames) && agL n rest) := by
  rw [agL]
  simp only [hd, if_true]
  split
  · rename_i c2 heq
    rw [hfc] at heq
    injection heq with hc
    subst hc
    rfl
  · rename_i heq
    rw [hfc] at heq
    cases heq

theorem agL_cons_act {f : String} (n : File) (rest : List String)
    (hd : isDirName f = false) :
    agL n (f :: rest) = (exportSafeB n f && agL n rest) := by
  rw [agL]
  simp only [hd, Bool.false_eq_true, if_false]

theorem actedL_nil (n : File) : actedL n [] = [] := by rw [actedL]

theorem actedL_cons_dir {f : String} {n c : File} (rest : List String)
    (hd : isDirName f = true) (hfc : findChild n.children f = some c) :
    actedL n (f :: rest) = actedL c c.selectableNames ++ actedL n rest := by
  rw [actedL]
  simp only [hd, if_true]
  split
  · rename_i c2 heq
    rw [hfc] at heq
    injection heq with hc
    subst hc
    rfl
  · rename_i heq
    rw [hfc] at heq
    cases heq

theorem actedL_cons_dir_none {f : String} {n : File} (rest : List String)
    (hd : isDirName f = true) (hfc : findChild n.children f = none) :
    actedL n (f :: rest) = actedL n rest := by
  rw [actedL]
  simp only [hd, if_true]
  split
  · rename_i c2 heq
    rw [hfc] at heq
    cases heq
  · simp

theorem actedL_cons_act {f : String} (n : File) (rest : List String)
    (hd : isDirName f = false) : actedL n (f :: rest) = f :: actedL n rest := by
  rw [actedL]
  simp only [hd, Bool.false_eq_true, if_false, List.singleton_append]

theorem dfsSpecL_cons_dir_none {f : String} {n : File} (mode : Option ActionSem)
    (ind : Nat) (ctx : List File) (rest : List String)
    (hd : isDirName f = true) (hfc : findChild n.children f = none) :
    dfsSpecL mode n ind ctx (f :: rest) =
      pcat (visOf mode ind f)
        (pcat ([], [CardOp.sel f]) (dfsSpecL mode n ind ctx rest)) := by
  rw [dfsSpecL]
  simp only [hd, if_true]
  split
  · rename_i c2 heq
    rw [hfc] at heq
    cases heq
  · rfl

theorem szPos (n : File) : 0 < sizeOf n := by
  cases n with
  | df nm fi s d ch => simp only [File.df.sizeOf_spec]; omega
  | ef nm fi s d rb rr => simp only [File.ef.sizeOf_spec]; omega

/-- With the observer action, the lines of the specification-side traversal
are exactly the acted-on names in order, each tagged `ACT `. -/
theorem dfsSpecL_gLog_fst : ∀ (N : Nat) (n : File), sizeOf n ≤ N →
    ∀ (ind : Nat) (ctx : List File) (fs : List String),
    (dfsSpecL (some gLog) n ind ctx fs).1 =
      (actedL n fs).map (fun f => "ACT " ++ f) := by
  intro N
  induction N with
  | zero =>
    intro n hn
    exact absurd hn (by have := szPos n; omega)
  | succ N ih =>
    intro n hn ind ctx fs
    induction fs with
    | nil =>
      rw [dfsSpecL_nil, actedL_nil]
      rfl
    | cons f rest ihfs =>
      rcases hd : isDirName f with _ | _
      · rw [dfsSpecL_cons_act (some gLog) ind ctx rest hd, actedL_cons_act n rest hd]
        simp only [pcat_fst, List.map_cons]
        rw [ihfs]
        simp [visOf, actSem, gLog]
      · rcases hfc : findChild n.children f with _ | c
        · rw [dfsSpecL_cons_dir_none (some gLog) ind ctx rest hd hfc,
            actedL_cons_dir_none rest hd hfc]
          simp only [pcat_fst]
          rw [ihfs]
          simp [visOf]
        · have hsz : sizeOf c ≤ N := by
            have := sizeOf_lt_of_findChild hfc
            omega
          rw [dfsSpecL_cons_dir (some gLog) ind ctx rest hd hfc,
            actedL_cons_dir rest hd hfc]
          simp only [pcat_fst, List.map_append]
          rw [ihfs, ih c hsz (ind + 1) (c :: ctx) c.selectableNames]
          simp [visOf]

/-- Every acted-on name fails the directory-prefix test. -/
theorem actedL_not_dir : ∀ (N : Nat) (n : File), sizeOf n ≤ N →
    ∀ (fs : List String) (f : String), f ∈ actedL n fs → isDirName f = false := by
  intro N
  induction N with
  | zero =>
    intro n hn
    exact absurd hn (by have := szPos n; omega)
  | succ N ih =>
    intro n hn fs
    induction fs with
    | nil =>
      intro f hf
      rw [actedL_nil] at hf
      cases hf
    | cons f2 rest ihfs =>
      intro f hf
      rcases hd : isDirName f2 with _ | _
      · rw [actedL_cons_act n rest hd] at hf
        rcases List.mem_cons.mp hf with h1 | h1
        · subst h1; exact hd
        · exact ihfs f h1
      · rcases hfc : findChild n.children f2 with _ | c
        · rw [actedL_cons_dir_none rest hd hfc] at hf
          exact ihfs f hf
        · rw [actedL_cons_dir rest hd hfc] at hf
          rcases List.mem_append.mp hf with h1 | h1
          · have hsz : sizeOf c ≤ N := by
              have := sizeOf_lt_of_findChild hfc
              omega
            exact ih c hsz c.selectableNames f h1
          · exact ihfs f h1

theorem dfsSpec_gLog_fst (n : File) (ind : Nat) (ctx : List File) :
    (dfsSpec (some gLog) n ind ctx).1 = (actedNames n).map (fun f => "ACT " ++ f) := by
  rw [dfsSpec, actedNames]
  exact dfsSpecL_gLog_fst (sizeOf n) n le_rfl ind ctx n.selectableNames

theorem actedNames_not_dir {n : File} {f : String} (h : f ∈ actedNames n) :
    isDirName f = false :=
  actedL_not_dir (sizeOf n) n le_rfl n.selectableNames f h

/-! ## Evaluation of the well-formedness predicates on the example cards -/

theorem wellFormedB_mfW : wellFormedB mfW = true := by
  rw [wellFormedB]
  rw [show mfW.selectableNames = ["DF.A", "EF.S"] from rfl]
  rw [wfL_cons_dir ["EF.S"] (by decide) (show findChild mfW.children "DF.A" = some dfA from rfl)]
  rw [show dfA.selectableNames = ["EF.T", "EF.R"] from rfl]
  rw [wfL_cons_act dfA ["EF.R"] (by decide)]
  rw [wfL_cons_act dfA [] (by decide)]
  rw [wfL_nil dfA]
  rw [wfL_cons_act mfW [] (by decide)]
  rw [wfL_nil mfW]
  decide

theorem allGoodB_mfW : allGoodB mfW = true := by
  rw [allGoodB]
  rw [show mfW.selectableNames = ["DF.A", "EF.S"] from rfl]
  rw [agL_cons_dir ["EF.S"] (by decide) (show findChild mfW.children "DF.A" = some dfA from rfl)]
  rw [show dfA.selectableNames = ["EF.T", "EF.R"] from rfl]
  rw [agL_cons_act dfA ["EF.R"] (by decide)]
  rw [agL_cons_act dfA [] (by decide)]
  rw [agL_nil dfA]
  rw [agL_cons_act mfW [] (by decide)]
  rw [agL_nil mfW]
  decide

theorem wellFormedB_mfC2 : wellFormedB mfC2 = true := by
  rw [wellFormedB]
  rw [show mfC2.selectableNames = ["DF.A", "DF.B"] from rfl]
  rw [wfL_cons_dir ["DF.B"] (by decide) (show findChild mfC2.children "DF.A" = some dfBadA from rfl)]
  rw [show dfBadA.selectableNames = ["EF.BAD"] from rfl]
  rw [wfL_cons_act dfBadA [] (by decide)]
  rw [wfL_nil dfBadA]
  rw [wfL_cons_dir [] (by decide) (show findChild mfC2.children "DF.B" = some dfB from rfl)]
  rw [show dfB.selectableNames = [] from rfl]
  rw [wfL_nil dfB]
  rw [wfL_nil mfC2]
  decide

theorem actedNames_mfC2 : actedNames mfC2 = ["EF.BAD"] := by
  rw [actedNames]
  rw [show mfC2.selectableNames = ["DF.A", "DF.B"] from rfl]
  rw [actedL_cons_dir ["DF.B"] (by decide) (show findChild mfC2.children "DF.A" = some dfBadA from rfl)]
  rw [show dfBadA.selectableNames = ["EF.BAD"] from rfl]
  rw [actedL_cons_act dfBadA [] (by decide)]
  rw [actedL_nil dfBadA]
  rw [actedL_cons_dir [] (by decide) (show findChild mfC2.children "DF.B" = some dfB from rfl)]
  rw [show dfB.selectableNames = [] from rfl]
  rw [actedL_nil dfB]
  rw [actedL_nil mfC2]
  rfl

/-- Resolving a path from a selection chain extends the current path by
exactly the path's elements. -/
theorem resolveFrom_path : ∀ (p : List String) (chain ch2 : List File),
    resolveFrom chain p = some ch2 →
    current_path ch2 false = current_path chain false ++ p := by
  intro p
  induction p with
  | nil =>
    intro chain ch2 h
    rw [resolveFrom] at h
    injection h with h1
    subst h1
    simp
  | cons f rest ih =>
    intro chain ch2 h
    rw [resolveFrom.eq_def] at h
    simp only at h
    rcases chain with _ | ⟨d, drest⟩
    · cases h
    · simp only at h
      rcases hfc : findChild d.children f with _ | c
      · rw [hfc] at h; cases h
      · rw [hfc] at h
        simp only at h
        rcases hcs : c.selOk with _ | _
        · rw [hcs] at h; simp at h
        · rw [hcs] at h
          rw [if_pos rfl] at h
          have h2 := ih (c :: d :: drest) ch2 h
          rw [h2]
          have h3 : current_path (c :: d :: drest) false =
              current_path (d :: drest) false ++ [c.name] := by
            simp [current_path]
          rw [h3, findChild_name hfc]
          simp

/-! ## The claims -/

/-- C1 (corrected): the tree walk restores the cursor whenever it returns
normally, and a single-file `export` restores the cursor whenever the file
is export-safe below a DF cursor; but in general `export` only guarantees
the trichotomy: final cursor is the entry directory, the entry cursor, or
the file it selected (a post-select failure leaves the cursor on the
selected file, see the counterexample). -/
theorem c1_cursor_restoration :
    (∀ (fuel ind : Nat) (st st2 : ShellState),
      walkF fuel ind none st = .ok st2 → st2.chain = st.chain) ∧
    (∀ (f : String) (st : ShellState) (m : File) (anc : List File),
      st.chain = m :: anc → m.isDf = true → exportSafeB m f = true →
      (exportCmd f st).chain = st.chain) ∧
    (∀ (f : String) (st : ShellState), (f == "..") = false →
      ((exportCmd f st).chain = dirChain st.chain ∨ (exportCmd f st).chain = st.chain ∨
        ∃ c, findChild (selCandidates st.chain) f = some c ∧ c.selOk = true ∧
          (exportCmd f st).chain = c :: dirChain st.chain)) := by
  refine ⟨?_, ?_, ?_⟩
  · intro fuel ind st st2 h
    exact walkF_preserves_chain none (fun a ha => by cases ha) fuel ind st st2 h
  · intro f st m anc hch hdf hsafe
    rw [exportCmd_safe_run hch hdf hsafe]
  · intro f st hne
    exact (exportCmd_shape f st).2 hne

/-- C1 witness: on the well-behaved card the tree walk returns with the MF
still selected, and exporting the export-safe `EF.S` leaves the cursor on
the MF. -/
theorem c1_witness :
    walkF 3 0 none stW = .ok wRes ∧ wRes.chain = stW.chain ∧
    exportSafeB mfW "EF.S" = true ∧ (exportCmd "EF.S" stW).chain = stW.chain :=
  ⟨rfl, c1_cursor_restoration.1 3 0 stW wRes rfl, by decide,
    c1_cursor_restoration.2.1 "EF.S" stW mfW [] rfl rfl (by decide)⟩

/-- C1 counterexample: before the export the cursor is the DF `MF`; after
`export EF.BAD` returns (its post-select read failure was caught), the
cursor is the EF `EF.BAD`, not the DF selected before the call. -/
theorem c1_counterexample :
    curName stC1 = some "MF" ∧ mfC1.isDf = true ∧
    curName (exportCmd "EF.BAD" stC1) = some "EF.BAD" ∧ badEF.isDf = false :=
  ⟨rfl, rfl, rfl, rfl⟩

/-- C2 (corrected): a failing `export` body is caught and recorded as a
`# bad file:` comment naming the file and the error (the caller of `export`
never sees the exception), and the enclosing walk loop moves on to the
remaining sibling names after any non-directory name; but a single file's
failure can still abort the whole export, because the caught failure can
displace the cursor and make a later sibling SELECT fail (see the
counterexample). -/
theorem c2_export_error_caught :
    (∀ (f : String) (st s : ShellState) (e : String),
      exportTryBody f (addOut st (dirHeaderLine st.chain)) = .error (s, e) →
      exportCmd f st = addOut (addOut s ("# bad file:" ++ f ++ ", " ++ e)) "#") ∧
    (∀ (walkRec : ShellState → Except (ShellState × String) ShellState)
      (ind : Nat) (f : String) (rest : List String) (st : ShellState),
      isDirName f = false →
      walkLoopF walkRec ind (some exportCmd) (f :: rest) st =
        walkLoopF walkRec ind (some exportCmd) rest (exportCmd f st)) := by
  constructor
  · intro f st s e hb
    exact exportCmd_catch hb
  · intro walkRec ind f rest st hd
    rw [walkLoopF]
    simp only [hd, Bool.false_eq_true, if_false, Option.isNone_some]

/-- C2 witness: exporting `EF.BAD` at the MF raises `KeyError` inside the
body, which `export` records as the `# bad file:` comment and the closing
`#`; and after a non-directory name the walk loop continues with the
remaining siblings. -/
theorem c2_witness :
    exportTryBody "EF.BAD" (addOut stC1 (dirHeaderLine stC1.chain)) =
      .error (c2S, "KeyError: file_descriptor") ∧
    exportCmd "EF.BAD" stC1 =
      addOut (addOut c2S
        ("# bad file:" ++ "EF.BAD" ++ ", " ++ "KeyError: file_descriptor")) "#" ∧
    walkLoopF (walkF 1 1 (some exportCmd)) 0 (some exportCmd) ["EF.S"] stW =
      walkLoopF (walkF 1 1 (some exportCmd)) 0 (some exportCmd) [] (exportCmd "EF.S" stW) :=
  ⟨rfl, c2_export_error_caught.1 "EF.BAD" stC1 c2S "KeyError: file_descriptor" rfl,
    c2_export_error_caught.2 (walkF 1 1 (some exportCmd)) 0 "EF.S" [] stW (by decide)⟩

/-- C2 counterexample: on a card whose directory skeleton is walkable (the
tree walk itself succeeds), the full export aborts with an uncaught error
after the failure of the single file `EF.BAD` displaced the cursor. -/
theorem c2_counterexample :
    wellFormedB mfC2 = true ∧ isErr (walkF 3 0 none stC2) = false ∧
    isErr (walkF 3 0 (some exportCmd) stC2) = true :=
  ⟨wellFormedB_mfC2, rfl, rfl⟩

/-- C3: on a walk-well-formed subtree with enough fuel, `walk` with no
action is exactly the specification-side depth-first pre-order traversal:
it visits the selectable names in list order, prints each visited name, and
for each `DF`/`ADF`-named child issues SELECT child, recurses, then SELECT
`".."`, before moving to the next sibling; the cursor returns to the start. -/
theorem c3_walk_dfs_preorder (fuel : Nat) (n : File) (anc : List File) (ind : Nat)
    (st : ShellState) (hwf : wellFormedB n = true) (hdep : depth n ≤ fuel)
    (hch : st.chain = n :: anc) :
    walkF fuel ind none st = .ok ⟨n :: anc,
      st.out ++ (dfsSpec none n ind (n :: anc)).1,
      st.tr ++ (dfsSpec none n ind (n :: anc)).2⟩ :=
  walkF_spec_none fuel n anc ind st hwf hdep hch

/-- C3 witness: the concrete walk of the well-behaved card. -/
theorem c3_witness :
    wellFormedB mfW = true ∧ depth mfW ≤ 3 ∧
    walkF 3 0 none stW = .ok ⟨[mfW],
      stW.out ++ (dfsSpec none mfW 0 [mfW]).1,
      stW.tr ++ (dfsSpec none mfW 0 [mfW]).2⟩ :=
  ⟨wellFormedB_mfW, by decide,
    c3_walk_dfs_preorder 3 mfW [] 0 stW wellFormedB_mfW (by decide) rfl⟩

/-- C4: for an EF that selects and reads cleanly below a DF cursor,
`export` appends exactly: the directory comment, then `hdrLines` (the
file-name/id comment, the structure comment, and one `select` line per
segment of the fully qualified named path), then `updLines` (one
`update_binary` line for a transparent file; one `update_record r` line for
every `r` in `1..num_of_rec` in ascending order for a record-structured
file), then the closing `#`. -/
theorem c4_export_ef_lines {f : String} {st : ShellState} {m c : File}
    {anc : List File} {fd : FileDesc} (hch : st.chain = m :: anc)
    (hdf : m.isDf = true) (hne : (f == "..") = false)
    (hfc : findChild m.children f = some c) (hcs : c.selOk = true)
    (hdesc : c.desc = some fd) (hclean : bodyCleanB c = true) :
    exportCmd f st = ⟨st.chain,
      st.out ++ (dirHeaderLine st.chain ::
        (hdrLines (c :: st.chain) fd ++ updLines c fd ++ ["#"])),
      st.tr ++ (CardOp.sel f :: (updOps fd ++ [CardOp.sel ".."]))⟩ := by
  have hsafe : exportSafeB m f = true := by
    rw [exportSafeB, hfc]
    simp [bne, hne, hclean]
  have hcand : selCandidates st.chain = m.children := by
    rw [hch]; exact selCandidates_df hdf
  have hdc : dirChain st.chain = st.chain := by
    rw [hch]; exact dirChain_df hdf
  rw [exportCmd_safe_run hch hdf hsafe, exportBlockOut, exportBlockTr, hcand, hdc]
  simp [hfc, hcs, hdesc, List.append_assoc]

/-- C4 witness: exporting the two-record `EF.R` below `DF.A`. -/
theorem c4_witness :
    bodyCleanB efR = true ∧
    exportCmd "EF.R" stC4 = ⟨stC4.chain,
      stC4.out ++ (dirHeaderLine stC4.chain ::
        (hdrLines (efR :: stC4.chain) ⟨"linear_fixed", some 2⟩ ++
          updLines efR ⟨"linear_fixed", some 2⟩ ++ ["#"])),
      stC4.tr ++ (CardOp.sel "EF.R" ::
        (updOps ⟨"linear_fixed", some 2⟩ ++ [CardOp.sel ".."]))⟩ :=
  ⟨by decide, @c4_export_ef_lines "EF.R" stC4 dfA efR [mfW] ⟨"linear_fixed", some 2⟩
    rfl rfl (by decide) rfl rfl rfl (by decide)⟩

/-- C5: every line `export` writes obeys the script line discipline
(`lineOk`): a comment starting `#`, or a `select` / `update_binary` /
`update_record` command followed by its space-separated arguments. -/
theorem c5_export_line_discipline (f : String) (st : ShellState) :
    OutOk st (exportCmd f st) :=
  (exportCmd_shape f st).1.1

/-- C6: with `--filename` given, `do_export` exports exactly that one file
(no walk: the card commands are that file's SELECT, reads, and the parent
SELECT only); without it, on an all-good subtree `do_export` walks the tree
and appends, for every acted-on (non-directory-named) visited name in
traversal order, exactly that file's self-contained export block. -/
theorem c6_do_export :
    (∀ (fuel : Nat) (fn : String) (st : ShellState),
      do_export fuel (some fn) st = .ok (exportCmd fn st) ∧
      OpsOk fn st (exportCmd fn st)) ∧
    (∀ (fuel : Nat) (n : File) (anc : List File) (st : ShellState),
      allGoodB n = true → depth n ≤ fuel → st.chain = n :: anc →
      do_export fuel none st = .ok ⟨n :: anc,
        st.out ++ (dfsSpec (some exportSem) n 0 (n :: anc)).1,
        st.tr ++ (dfsSpec (some exportSem) n 0 (n :: anc)).2⟩) := by
  constructor
  · intro fuel fn st
    exact ⟨rfl, (exportCmd_shape fn st).1.2⟩
  · intro fuel n anc st hag hdep hch
    have hA : ∀ (f : String) (s : ShellState) (m : File) (ctx : List File),
        isDirName f = false → s.chain = m :: ctx → m.isDf = true →
        expInv (m :: ctx) → f ∈ m.selectableNames →
        exportCmd f s = ⟨s.chain, s.out ++ (exportSem f s.chain).1,
          s.tr ++ (exportSem f s.chain).2⟩ := by
      intro f s m ctx hd hch2 hdf hp hmem
      have hag2 : agL m m.selectableNames = true := hp m rfl
      have hsafe : exportSafeB m f = true := agL_mem_safe hag2 hmem hd
      exact exportCmd_safe_run hch2 hdf hsafe
    have hstep : ∀ (m : File) (ctx : List File) (f : String) (c : File),
        expInv (m :: ctx) → isDirName f = true →
        findChild m.children f = some c → expInv (c :: m :: ctx) := by
      intro m ctx f c hp hd hfc m2 hm2
      simp only [List.head?] at hm2
      injection hm2 with hm2
      subst hm2
      have hag2 : agL m m.selectableNames = true := hp m rfl
      have hmem : f ∈ m.selectableNames := by
        have h1 := findChild_mem hfc
        have h2 := findChild_name hfc
        rw [File.selectableNames, ← h2]
        exact List.mem_map_of_mem File.name h1
      obtain ⟨c2, hfc2, hcs2, hag3⟩ := agL_mem_dir hag2 hmem hd
      rw [hfc] at hfc2
      injection hfc2 with hc
      subst hc
      exact hag3
    have hP : expInv (n :: anc) := by
      intro m hm
      simp only [List.head?] at hm
      injection hm with hm
      subst hm
      exact hag
    exact walkF_spec_act expInv exportCmd exportSem hA hstep fuel n anc 0 st
      (wellFormedB_of_allGoodB hag) hdep hch hP

/-- C6 witness: the full export of the well-behaved card, and the
single-file form at fuel 0 (no walk happens). -/
theorem c6_witness :
    allGoodB mfW = true ∧ depth mfW ≤ 3 ∧
    do_export 3 none stW = .ok ⟨[mfW],
      stW.out ++ (dfsSpec (some exportSem) mfW 0 [mfW]).1,
      stW.tr ++ (dfsSpec (some exportSem) mfW 0 [mfW]).2⟩ ∧
    do_export 0 (some "EF.S") stW = .ok (exportCmd "EF.S" stW) ∧
    OpsOk "EF.S" stW (exportCmd "EF.S" stW) :=
  ⟨allGoodB_mfW, by decide,
    c6_do_export.2 3 mfW [] stW allGoodB_mfW (by decide) rfl,
    (c6_do_export.1 0 "EF.S" stW).1, (c6_do_export.1 0 "EF.S" stW).2⟩

/-- C7 (spec-modelled select semantics): selecting a valid absolute path
and then reading the named current path returns exactly the path's
elements. -/
theorem c7_select_path_roundtrip {root : File} {p : List String}
    {ch : List File} (h : selectAbsPath root p = some ch) :
    current_path ch false = p := by
  rw [selectAbsPath.eq_def] at h
  rcases p with _ | ⟨r, rest⟩
  · simp only at h
    cases h
  · simp only at h
    rcases hr : r == root.name with _ | _
    · rw [hr] at h; simp at h
    · rw [hr] at h
      rw [if_pos rfl] at h
      have h2 := resolveFrom_path rest [root] ch h
      rw [h2]
      have h3 : current_path [root] false = [root.name] := by
        simp [current_path]
      rw [h3, eq_of_beq hr]
      rfl

/-- C7 witness: the path `MF/DF.A/EF.T` round-trips. -/
theorem c7_witness :
    selectAbsPath mfW ["MF", "DF.A", "EF.T"] = some [efT, dfA, mfW] ∧
    current_path [efT, dfA, mfW] false = ["MF", "DF.A", "EF.T"] :=
  ⟨rfl, c7_select_path_roundtrip
    (show selectAbsPath mfW ["MF", "DF.A", "EF.T"] = some [efT, dfA, mfW] from rfl)⟩

/-- C8: `walk` recurses into a name exactly when it passes the pure
name-prefix test (`DF` in the first two characters or `ADF` in the first
three); with an action supplied, the action is applied to exactly the
acted-on names of the traversal (made observable by the logging action
`aLog`), and every acted-on name fails the prefix test. -/
theorem c8_prefix_classification :
    (∀ f : String, isDirName f = (f.take 2 == "DF" || f.take 3 == "ADF")) ∧
    (∀ (n : File) (f : String), f ∈ actedNames n → isDirName f = false) ∧
    (∀ (fuel : Nat) (n : File) (anc : List File) (ind : Nat) (st : ShellState),
      wellFormedB n = true → depth n ≤ fuel → st.chain = n :: anc →
      walkF fuel ind (some aLog) st = .ok ⟨n :: anc,
        st.out ++ (actedNames n).map (fun f => "ACT " ++ f),
        st.tr ++ (dfsSpec (some gLog) n ind (n :: anc)).2⟩) := by
  refine ⟨fun f => rfl, fun n f h => actedNames_not_dir h, ?_⟩
  intro fuel n anc ind st hwf hdep hch
  have hA : ∀ (f : String) (s : ShellState) (m : File) (ctx : List File),
      isDirName f = false → s.chain = m :: ctx → m.isDf = true →
      True → f ∈ m.selectableNames →
      aLog f s = ⟨s.chain, s.out ++ (gLog f s.chain).1,
        s.tr ++ (gLog f s.chain).2⟩ := by
    intro f s m ctx _ _ _ _ _
    obtain ⟨ch, out, tr⟩ := s
    simp [aLog, gLog, addOut]
  have hw := walkF_spec_act (fun _ => True) aLog gLog hA
    (fun m ctx f c _ _ _ => trivial) fuel n anc ind st hwf hdep hch trivial
  rw [hw, dfsSpec_gLog_fst]

/-- C8 witness: the prefix test on `DF.A`; `EF.BAD` is acted on and fails
the test; and the logged walk of the well-behaved card. -/
theorem c8_witness :
    isDirName "DF.A" = ("DF.A".take 2 == "DF" || "DF.A".take 3 == "ADF") ∧
    isDirName "EF.BAD" = false ∧
    walkF 3 0 (some aLog) stW = .ok ⟨[mfW],
      stW.out ++ (actedNames mfW).map (fun f => "ACT " ++ f),
      stW.tr ++ (dfsSpec (some gLog) mfW 0 [mfW]).2⟩ :=
  ⟨c8_prefix_classification.1 "DF.A",
    c8_prefix_classification.2.1 mfC2 "EF.BAD"
      (by rw [actedNames_mfC2]; exact List.mem_singleton.mpr rfl),
    c8_prefix_classification.2.2 3 mfW [] 0 stW wellFormedB_mfW (by decide) rfl⟩

/-- C9: after a completed `select` command and after a change of the
`numeric_path` settable, the prompt is `pySIM-shell (` ++ the
`/`-joined fully qualified path of the selected file ++ `)> `, with names
when `numeric_path` is false and file ids when it is true. -/
theorem c9_prompt_invariant :
    (∀ (arg : String) (app app2 : AppState), do_select arg app = .ok app2 →
      app2.prompt = "pySIM-shell (" ++ String.intercalate "/"
        (fully_qualified_path app2.shell.chain (!app2.numeric_path)) ++ ")> ") ∧
    (∀ (b : Bool) (app : AppState),
      (set_numeric_path b app).prompt = "pySIM-shell (" ++ String.intercalate "/"
        (fully_qualified_path (set_numeric_path b app).shell.chain
          (!(set_numeric_path b app).numeric_path)) ++ ")> ") := by
  constructor
  · intro arg app app2 h
    rw [do_select] at h
    rcases hs : rsSelect app.shell arg with e | st1
    · rw [hs] at h; cases h
    · rw [hs] at h
      simp only at h
      injection h with h1
      subst h1
      rfl
  · intro b app
    rfl

/-- C9 witness: selecting `DF.A` from the MF of the well-behaved card, and
switching `numeric_path` on. -/
theorem c9_witness :
    do_select "DF.A" appW = .ok appW2 ∧
    appW2.prompt = "pySIM-shell (" ++ String.intercalate "/"
      (fully_qualified_path appW2.shell.chain (!appW2.numeric_path)) ++ ")> " ∧
    (set_numeric_path true appW).prompt = "pySIM-shell (" ++ String.intercalate "/"
      (fully_qualified_path (set_numeric_path true appW).shell.chain
        (!(set_numeric_path true appW).numeric_path)) ++ ")> " :=
  ⟨rfl, c9_prompt_invariant.1 "DF.A" appW appW2 rfl,
    c9_prompt_invariant.2 true appW⟩

set_option maxRecDepth 8000 in
/-- C10: the keys of `EF_UST_map` are exactly the consecutive integers
`1..111` in order, and every entry's description is non-empty. -/
theorem c10_ust_map_keys :
    EF_UST_map.map Prod.fst = List.range' 1 111 ∧
    EF_UST_map.all (fun p => p.2.length != 0) = true :=
  ⟨rfl, rfl⟩

end PySim
